import Mathlib

/-!
Shallow embedding of `pi_deque` (`src/deque.rs`): a doubly-linked deque whose
node storage lives in an external slab-style collaborator (`IndexMap`), with
nodes addressed by `usize` handles and `0` reserved as the "no node" sentinel.

The `IndexMap` collaborator itself is not part of this repository; it is
modelled from the spec's §6 contract: `insert` allocates and returns a fresh
handle that is never `0`, `remove` deallocates and returns the stored node
(faulting on a dead handle), `get_unchecked`/`get_unchecked_mut` dereference
without a liveness check (undefined on a dead handle — modelled as `none`),
and `contains` is a liveness check.

Every place where the Rust code could hit undefined behaviour (an unchecked
dereference or a slab `remove` of a dead handle) is modelled as `Option`
returning `none`; the deque operations therefore return `Option` of their
results, and `some` means the Rust execution is defined.
-/

namespace PiDeque

/-- `Node<T>`: element plus successor (`next`) and predecessor (`pre`) handles,
mirroring `struct Node<T> { elem, next, pre }`. -/
structure Node (T : Type) where
  elem : T
  next : Nat
  pre : Nat
  deriving Repr, DecidableEq

/-- `Node::new(elem, pre, next)`. -/
def Node.new {T : Type} (elem : T) (pre next : Nat) : Node T :=
  { elem := elem, next := next, pre := pre }

/-- Modelled from the spec: the external slab-style Index Map collaborator
(`pi_slab::IndexMap`, not in this repository). Live slots as an association
list from handles to nodes, plus the next fresh handle to issue; handles
start at 1 so that `0` is never issued, per the §6 contract. -/
structure IndexMap (T : Type) where
  slots : List (Nat × Node T)
  fresh : Nat
  deriving Repr, DecidableEq

namespace IndexMap

variable {T : Type}

/-- A fresh, empty Index Map; the first issued handle is `1`. -/
def empty : IndexMap T := { slots := [], fresh := 1 }

/-- `insert(node) -> Handle`: allocates a slot, returns a freshly issued
handle (never `0`). -/
def insert (m : IndexMap T) (n : Node T) : Nat × IndexMap T :=
  (m.fresh, { slots := m.slots ++ [(m.fresh, n)], fresh := m.fresh + 1 })

/-- `get(handle)`: the node at `handle`, or `none` if the handle is dead. -/
def get (m : IndexMap T) (i : Nat) : Option (Node T) :=
  match m.slots.find? (fun p => p.1 == i) with
  | some p => some p.2
  | none => none

/-- `contains(handle) -> bool`: liveness check without removal. -/
def contains (m : IndexMap T) (i : Nat) : Bool :=
  (m.get i).isSome

/-- Deallocate the slot at `i` (the storage effect of `remove`). -/
def erase (m : IndexMap T) (i : Nat) : IndexMap T :=
  { slots := m.slots.filter (fun p => p.1 != i), fresh := m.fresh }

/-- `remove(handle) -> Node`: deallocates and returns the stored node;
faults (`none`) on a dead handle. -/
def remove (m : IndexMap T) (i : Nat) : Option (Node T × IndexMap T) :=
  match m.get i with
  | some n => some (n, m.erase i)
  | none => none

/-- `get_unchecked_mut(i)` followed by a field update `f`: undefined
(`none`) when `i` is dead. -/
def withNode (m : IndexMap T) (i : Nat) (f : Node T → Node T) :
    Option (IndexMap T) :=
  match m.get i with
  | some _ =>
      some { slots := m.slots.map (fun p => if p.1 == i then (p.1, f p.2) else p),
             fresh := m.fresh }
  | none => none

end IndexMap

/-- The `Deque` controller: only the three scalars `first`, `last`, `len`
(`PhantomData` has no runtime content and is dropped). -/
structure Deque where
  first : Nat
  last : Nat
  len : Nat
  deriving Repr, DecidableEq

namespace Deque

variable {T : Type}

/-- `Deque::new()`. -/
def new : Deque := { first := 0, last := 0, len := 0 }

/-- `get_first()`. -/
def get_first (d : Deque) : Nat := d.first

/-- `get_last()`. -/
def get_last (d : Deque) : Nat := d.last

/-- `len()`. -/
def length (d : Deque) : Nat := d.len

/-- `push_back(elem, index_map) -> usize`. -/
def push_back (d : Deque) (elem : T) (m : IndexMap T) :
    Option (Nat × Deque × IndexMap T) :=
  let len := d.len + 1
  if d.last == 0 then
    let r := m.insert (Node.new elem 0 0)
    some (r.1, { first := r.1, last := r.1, len := len }, r.2)
  else
    let r := m.insert (Node.new elem d.last 0)
    match r.2.withNode d.last (fun n => { n with next := r.1 }) with
    | some m2 => some (r.1, { first := d.first, last := r.1, len := len }, m2)
    | none => none

/-- `push_front(elem, index_map) -> usize`. -/
def push_front (d : Deque) (elem : T) (m : IndexMap T) :
    Option (Nat × Deque × IndexMap T) :=
  let len := d.len + 1
  if d.first == 0 then
    let r := m.insert (Node.new elem 0 0)
    some (r.1, { first := r.1, last := r.1, len := len }, r.2)
  else
    let r := m.insert (Node.new elem 0 d.first)
    match r.2.withNode d.first (fun n => { n with pre := r.1 }) with
    | some m2 => some (r.1, { first := r.1, last := d.last, len := len }, m2)
    | none => none

/-- `push_to_back(elem, index, index_map) -> usize` (unsafe): insert
immediately after the anchor `index`. -/
def push_to_back (d : Deque) (elem : T) (index : Nat) (m : IndexMap T) :
    Option (Nat × Deque × IndexMap T) :=
  let len := d.len + 1
  let r := m.insert (Node.new elem index 0)
  match r.2.get index with
  | none => none
  | some e =>
    let next := e.next
    match r.2.withNode index (fun n => { n with next := r.1 }) with
    | none => none
    | some m1 =>
      if next == 0 then
        some (r.1, { first := d.first, last := r.1, len := len }, m1)
      else
        match m1.withNode next (fun n => { n with pre := r.1 }) with
        | none => none
        | some m2 =>
          match m2.withNode r.1 (fun n => { n with next := next }) with
          | none => none
          | some m3 =>
            some (r.1, { first := d.first, last := d.last, len := len }, m3)

/-- `push_to_front(elem, index, index_map) -> usize` (unsafe): insert
immediately before the anchor `index`. -/
def push_to_front (d : Deque) (elem : T) (index : Nat) (m : IndexMap T) :
    Option (Nat × Deque × IndexMap T) :=
  let len := d.len + 1
  let r := m.insert (Node.new elem 0 index)
  match r.2.get index with
  | none => none
  | some e =>
    let pre := e.pre
    match r.2.withNode index (fun n => { n with pre := r.1 }) with
    | none => none
    | some m1 =>
      if pre == 0 then
        some (r.1, { first := r.1, last := d.last, len := len }, m1)
      else
        match m1.withNode pre (fun n => { n with next := r.1 }) with
        | none => none
        | some m2 =>
          match m2.withNode r.1 (fun n => { n with pre := pre }) with
          | none => none
          | some m3 =>
            some (r.1, { first := d.first, last := d.last, len := len }, m3)

/-- `pop_front_unchecked(index_map) -> T` (unsafe): remove the head node. -/
def pop_front_unchecked (d : Deque) (m : IndexMap T) :
    Option (T × Deque × IndexMap T) :=
  let len := d.len - 1
  match m.remove d.first with
  | none => none
  | some (node, m1) =>
    if node.next == 0 then
      some (node.elem, { first := node.next, last := 0, len := len }, m1)
    else
      match m1.withNode node.next (fun n => { n with pre := 0 }) with
      | none => none
      | some m2 =>
        some (node.elem, { first := node.next, last := d.last, len := len }, m2)

/-- `pop_front(index_map) -> Option<T>`: checked wrapper. -/
def pop_front (d : Deque) (m : IndexMap T) :
    Option (Option T × Deque × IndexMap T) :=
  if d.first == 0 then
    some (none, d, m)
  else
    match d.pop_front_unchecked m with
    | some (x, d1, m1) => some (some x, d1, m1)
    | none => none

/-- `pop_back_unchecked(index_map) -> T` (unsafe): remove the tail node. -/
def pop_back_unchecked (d : Deque) (m : IndexMap T) :
    Option (T × Deque × IndexMap T) :=
  let len := d.len - 1
  match m.remove d.last with
  | none => none
  | some (node, m1) =>
    if node.pre == 0 then
      some (node.elem, { first := 0, last := node.pre, len := len }, m1)
    else
      match m1.withNode node.pre (fun n => { n with next := 0 }) with
      | none => none
      | some m2 =>
        some (node.elem, { first := d.first, last := node.pre, len := len }, m2)

/-- `pop_back(index_map) -> Option<T>`: checked wrapper. -/
def pop_back (d : Deque) (m : IndexMap T) :
    Option (Option T × Deque × IndexMap T) :=
  if d.last == 0 then
    some (none, d, m)
  else
    match d.pop_back_unchecked m with
    | some (x, d1, m1) => some (some x, d1, m1)
    | none => none

/-- `remove(index, index_map) -> T`: remove by handle anywhere in the list,
with the four structural cases on the removed node's `(pre, next)` pair. -/
def remove (d : Deque) (index : Nat) (m : IndexMap T) :
    Option (T × Deque × IndexMap T) :=
  match m.remove index with
  | none => none
  | some (node, m1) =>
    match node.pre, node.next with
    | 0, 0 =>
      some (node.elem, { first := 0, last := 0, len := d.len - 1 }, m1)
    | _, 0 =>
      match m1.withNode node.pre (fun n => { n with next := 0 }) with
      | none => none
      | some m2 =>
        some (node.elem, { first := d.first, last := node.pre, len := d.len - 1 }, m2)
    | 0, _ =>
      match m1.withNode node.next (fun n => { n with pre := 0 }) with
      | none => none
      | some m2 =>
        some (node.elem, { first := node.next, last := d.last, len := d.len - 1 }, m2)
    | _, _ =>
      match m1.withNode node.pre (fun n => { n with next := node.next }) with
      | none => none
      | some m2 =>
        match m2.withNode node.next (fun n => { n with pre := node.pre }) with
        | none => none
        | some m3 =>
          some (node.elem, { first := d.first, last := d.last, len := d.len - 1 }, m3)

/-- `try_remove(index, index_map) -> Option<T>`: liveness-checked remove. -/
def try_remove (d : Deque) (index : Nat) (m : IndexMap T) :
    Option (Option T × Deque × IndexMap T) :=
  match m.contains index with
  | true =>
    match d.remove index m with
    | some (x, d1, m1) => some (some x, d1, m1)
    | none => none
  | false => some (none, d, m)

/-- The body of `clear`'s loop: repeatedly slab-remove the node at `first`
and follow its `next` handle until the sentinel `0`. `fuel` bounds the
iteration count; running out of fuel models divergence (`none`). -/
def clearLoop (fuel : Nat) (first : Nat) (m : IndexMap T) : Option (IndexMap T) :=
  match fuel with
  | 0 => none
  | fuel + 1 =>
    if first == 0 then
      some m
    else
      match m.remove first with
      | none => none
      | some (node, m1) => clearLoop fuel node.next m1

/-- `clear(index_map)`: remove from the head until empty, then zero the
scalars. Each loop iteration frees one live slot, so `slots.length + 1`
fuel is enough for any terminating execution. -/
def clear (d : Deque) (m : IndexMap T) : Option (Deque × IndexMap T) :=
  match clearLoop (m.slots.length + 1) d.first m with
  | some m1 => some ({ first := 0, last := 0, len := 0 }, m1)
  | none => none

/-- The forward iterator (`Iter::next` iterated to exhaustion): walk
successor handles from `start`, collecting elements, until the sentinel `0`.
An unchecked dereference of a dead handle is `none`; running out of fuel
(a cycle longer than the number of live slots) is also `none`. -/
def iterFrom (fuel : Nat) (start : Nat) (m : IndexMap T) : Option (List T) :=
  if start == 0 then
    some []
  else
    match fuel with
    | 0 => none
    | fuel + 1 =>
      match m.get start with
      | none => none
      | some node =>
        match iterFrom fuel node.next m with
        | some l => some (node.elem :: l)
        | none => none

/-- `iter(container)` run to exhaustion: the full element sequence of one
fresh forward iteration, starting from `first`. -/
def iterList (d : Deque) (m : IndexMap T) : Option (List T) :=
  iterFrom m.slots.length d.first m

/-- `Clone for Deque`: copies exactly the three scalars (plus the zero-sized
`PhantomData`); it neither touches nor receives the Index Map. -/
def clone (d : Deque) : Deque :=
  { first := d.first, last := d.last, len := d.len }

end Deque

/-- `popN n` iterates the checked `pop_front` `n` times, discarding the
returned values (the reference process of the spec's `clear` equivalence). -/
def popN {T : Type} : Nat → Deque → IndexMap T → Option (Deque × IndexMap T)
  | 0, d, m => some (d, m)
  | n + 1, d, m =>
    match d.pop_front m with
    | some (_, d1, m1) => popN n d1 m1
    | none => none

/-- `segb m pre l after`: the handles `l` form a doubly-linked segment in
`m` whose first node's predecessor handle is `pre`, whose last node's
successor handle is `after`, and whose interior links match adjacency. -/
def segb {T : Type} (m : IndexMap T) : Nat → List Nat → Nat → Bool
  | _, [], _ => true
  | pre, h :: t, after =>
    (match m.get h with
     | some node => node.pre == pre && node.next == t.headD after
     | none => false) && segb m h t after

/-- The elements stored at a list of handles (dead handles are skipped;
on a well-formed chain none are dead). -/
def elemsOf {T : Type} (m : IndexMap T) (hs : List Nat) : List T :=
  hs.filterMap (fun h => (m.get h).map Node.elem)

/-- Deallocate a list of handles in order: the storage effect shared by
`clear` and by repeatedly calling `pop_front`. -/
def eraseList {T : Type} (m : IndexMap T) : List Nat → IndexMap T
  | [] => m
  | h :: t => eraseList (m.erase h) t

/-- Well-formedness of a deque over its Index Map, witnessed by the list of
handles `hs` of its nodes in front-to-back order: the three scalars describe
`hs`, the nodes form a doubly-linked chain with sentinel `0` at both ends,
the live handles of the map are exactly `hs`, and the map only ever issued
positive handles below its fresh counter. -/
structure WF {T : Type} (d : Deque) (m : IndexMap T) (hs : List Nat) : Prop where
  nodup : hs.Nodup
  len_eq : d.len = hs.length
  first_eq : d.first = hs.headD 0
  last_eq : d.last = hs.getLastD 0
  chain : segb m 0 hs 0 = true
  live_iff : ∀ h, m.contains h = true ↔ h ∈ hs
  keys_pos : ∀ k ∈ m.slots.map Prod.fst, 1 ≤ k ∧ k < m.fresh
  fresh_pos : 1 ≤ m.fresh

/-- States reachable from a new deque over a fresh Index Map by the public
operations, each applied within its precondition (for the unchecked anchor
insertions, liveness of the anchor; a `some` result rules out the undefined
executions). -/
inductive Reachable {T : Type} : Deque → IndexMap T → Prop where
  | init : Reachable Deque.new IndexMap.empty
  | push_back {d m e i d' m'} : Reachable d m →
      Deque.push_back d e m = some (i, d', m') → Reachable d' m'
  | push_front {d m e i d' m'} : Reachable d m →
      Deque.push_front d e m = some (i, d', m') → Reachable d' m'
  | push_to_back {d m e a i d' m'} : Reachable d m →
      m.contains a = true →
      Deque.push_to_back d e a m = some (i, d', m') → Reachable d' m'
  | push_to_front {d m e a i d' m'} : Reachable d m →
      m.contains a = true →
      Deque.push_to_front d e a m = some (i, d', m') → Reachable d' m'
  | pop_front {d m x d' m'} : Reachable d m →
      Deque.pop_front d m = some (x, d', m') → Reachable d' m'
  | pop_back {d m x d' m'} : Reachable d m →
      Deque.pop_back d m = some (x, d', m') → Reachable d' m'
  | remove {d m i x d' m'} : Reachable d m →
      Deque.remove d i m = some (x, d', m') → Reachable d' m'
  | try_remove {d m i x d' m'} : Reachable d m →
      Deque.try_remove d i m = some (x, d', m') → Reachable d' m'
  | clear {d m d' m'} : Reachable d m →
      Deque.clear d m = some (d', m') → Reachable d' m'

namespace IndexMap

variable {T : Type} {m m' : IndexMap T} {i j : Nat} {n : Node T}

theorem get_eq_find? (m : IndexMap T) (i : Nat) :
    m.get i = (m.slots.find? (fun p => p.1 == i)).map Prod.snd := by
  unfold get
  cases m.slots.find? (fun p => p.1 == i) <;> rfl

theorem mem_slots_of_get (h : m.get i = some n) : (i, n) ∈ m.slots := by
  rw [get_eq_find?] at h
  cases hf : m.slots.find? (fun p => p.1 == i) with
  | none => rw [hf] at h; simp at h
  | some p =>
    rw [hf] at h
    simp only [Option.map_some'] at h
    injection h with h
    have hp := List.find?_some hf
    have hmem := List.mem_of_find?_eq_some hf
    simp only [beq_iff_eq] at hp
    obtain ⟨p1, p2⟩ := p
    simp only at hp h
    subst hp h
    exact hmem

theorem contains_true_iff : m.contains i = true ↔ ∃ n, m.get i = some n := by
  unfold contains
  cases h : m.get i <;> simp [h]

theorem contains_key_mem (h : m.contains i = true) : i ∈ m.slots.map Prod.fst := by
  obtain ⟨n, hn⟩ := contains_true_iff.mp h
  exact List.mem_map.mpr ⟨(i, n), mem_slots_of_get hn, rfl⟩

theorem contains_true_iff_mem : m.contains i = true ↔ i ∈ m.slots.map Prod.fst := by
  constructor
  · exact contains_key_mem
  · intro hmem
    obtain ⟨p, hp, hfst⟩ := List.mem_map.mp hmem
    unfold contains
    rw [get_eq_find?]
    have : (m.slots.find? (fun p => p.1 == i)).isSome := by
      rw [List.find?_isSome]
      exact ⟨p, hp, by simp [hfst]⟩
    cases hf : m.slots.find? (fun p => p.1 == i) with
    | none => rw [hf] at this; simp at this
    | some q => simp

theorem get_pos (hk : ∀ k ∈ m.slots.map Prod.fst, 1 ≤ k ∧ k < m.fresh)
    (h : m.get i = some n) : 1 ≤ i ∧ i < m.fresh :=
  hk i (List.mem_map.mpr ⟨(i, n), mem_slots_of_get h, rfl⟩)

theorem get_zero (hk : ∀ k ∈ m.slots.map Prod.fst, 1 ≤ k ∧ k < m.fresh) :
    m.get 0 = none := by
  cases h : m.get 0 with
  | none => rfl
  | some n => exact absurd (get_pos hk h).1 (by omega)

@[simp] theorem insert_fst (m : IndexMap T) (n : Node T) : (m.insert n).1 = m.fresh := rfl

@[simp] theorem insert_snd_fresh (m : IndexMap T) (n : Node T) :
    (m.insert n).2.fresh = m.fresh + 1 := rfl

@[simp] theorem insert_snd_slots (m : IndexMap T) (n : Node T) :
    (m.insert n).2.slots = m.slots ++ [(m.fresh, n)] := rfl

theorem get_insert_self (hk : ∀ k ∈ m.slots.map Prod.fst, 1 ≤ k ∧ k < m.fresh) :
    (m.insert n).2.get m.fresh = some n := by
  rw [get_eq_find?, insert_snd_slots, List.find?_append]
  have h1 : m.slots.find? (fun p => p.1 == m.fresh) = none := by
    rw [List.find?_eq_none]
    intro p hp hbe
    have := (hk p.1 (List.mem_map.mpr ⟨p, hp, rfl⟩)).2
    simp only [beq_iff_eq] at hbe
    omega
  rw [h1, Option.none_or, List.find?_cons_of_pos _ (by simp)]
  rfl

theorem get_insert_ne (hij : i ≠ m.fresh) : (m.insert n).2.get i = m.get i := by
  rw [get_eq_find?, get_eq_find?, insert_snd_slots, List.find?_append]
  rw [List.find?_cons_of_neg _ (by simpa using Ne.symm hij), List.find?_nil]
  cases m.slots.find? (fun p => p.1 == i) <;> rfl

@[simp] theorem erase_fresh (m : IndexMap T) (i : Nat) : (m.erase i).fresh = m.fresh := rfl

@[simp] theorem erase_slots (m : IndexMap T) (i : Nat) :
    (m.erase i).slots = m.slots.filter (fun p => p.1 != i) := rfl

theorem get_erase_self (m : IndexMap T) (i : Nat) : (m.erase i).get i = none := by
  rw [get_eq_find?, erase_slots]
  have : (m.slots.filter (fun p => p.1 != i)).find? (fun p => p.1 == i) = none := by
    rw [List.find?_eq_none]
    intro p hp
    have := List.of_mem_filter hp
    simpa using this
  simp [this]

theorem get_erase_ne (m : IndexMap T) (hij : j ≠ i) : (m.erase i).get j = m.get j := by
  rw [get_eq_find?, get_eq_find?, erase_slots]
  have : ∀ l : List (Nat × Node T),
      (l.filter (fun p => p.1 != i)).find? (fun p => p.1 == j) =
        l.find? (fun p => p.1 == j) := by
    intro l
    induction l with
    | nil => rfl
    | cons p t ih =>
      by_cases hpj : p.1 = j
      · rw [List.filter_cons_of_pos (by simp [hpj, hij]),
          List.find?_cons_of_pos _ (by simp [hpj]),
          List.find?_cons_of_pos _ (by simp [hpj])]
      · by_cases hpi : p.1 = i
        · rw [List.filter_cons_of_neg (by simp [hpi]), ih,
            List.find?_cons_of_neg _ (by simp [hpj])]
        · rw [List.filter_cons_of_pos (by simp [hpi]),
            List.find?_cons_of_neg _ (by simp [hpj]),
            List.find?_cons_of_neg _ (by simp [hpj]), ih]
  rw [this]

theorem remove_of_get (h : m.get i = some n) : m.remove i = some (n, m.erase i) := by
  unfold remove
  rw [h]

theorem remove_some (h : m.remove i = some (n, m')) :
    m.get i = some n ∧ m' = m.erase i := by
  unfold remove at h
  cases hg : m.get i <;> rw [hg] at h
  · exact absurd h (by simp)
  · injection h with h
    injection h with h1 h2
    exact ⟨by rw [h1], h2.symm⟩

theorem remove_slots_lt (h : m.remove i = some (n, m')) :
    m'.slots.length < m.slots.length := by
  obtain ⟨hg, hm⟩ := remove_some h
  subst hm
  rw [erase_slots]
  have hmem : (i, n) ∈ m.slots := mem_slots_of_get hg
  apply List.length_filter_lt_length_iff_exists.mpr
  exact ⟨(i, n), hmem, by simp⟩

theorem withNode_isSome {f : Node T → Node T} (h : m.get i = some n) :
    ∃ m', m.withNode i f = some m' := by
  unfold withNode
  rw [h]
  exact ⟨_, rfl⟩

theorem withNode_some_eq {f : Node T → Node T} (h : m.withNode i f = some m') :
    m'.slots = m.slots.map (fun p => if p.1 == i then (p.1, f p.2) else p) ∧
      m'.fresh = m.fresh := by
  unfold withNode at h
  cases hg : m.get i <;> rw [hg] at h <;> simp only [Option.some.injEq] at h
  · exact absurd h (by simp)
  · rw [← h]
    exact ⟨rfl, rfl⟩

theorem withNode_fresh {f : Node T → Node T} (h : m.withNode i f = some m') :
    m'.fresh = m.fresh :=
  (withNode_some_eq h).2

theorem withNode_keys {f : Node T → Node T} (h : m.withNode i f = some m') :
    m'.slots.map Prod.fst = m.slots.map Prod.fst := by
  rw [(withNode_some_eq h).1]
  simp only [List.map_map]
  apply List.map_congr_left
  intro p _
  by_cases hpi : p.1 = i <;> simp [hpi]

theorem find?_key_map (f : Node T → Node T) (i j : Nat) (l : List (Nat × Node T)) :
    (l.map (fun p => if p.1 == i then (p.1, f p.2) else p)).find? (fun p => p.1 == j) =
      (l.find? (fun p => p.1 == j)).map (fun p => if p.1 == i then (p.1, f p.2) else p) := by
  have hpred : ((fun p : Nat × Node T => p.1 == j) ∘
      (fun p => if p.1 == i then (p.1, f p.2) else p)) =
        (fun p : Nat × Node T => p.1 == j) := by
    funext p
    by_cases hpi : p.1 = i <;> simp [hpi]
  rw [List.find?_map _ _, hpred]

theorem get_withNode_self {f : Node T → Node T} (h : m.withNode i f = some m')
    (hg : m.get i = some n) : m'.get i = some (f n) := by
  rw [get_eq_find?, (withNode_some_eq h).1, find?_key_map]
  rw [get_eq_find?] at hg
  cases hf : m.slots.find? (fun p => p.1 == i) with
  | none => rw [hf] at hg; simp at hg
  | some p =>
    rw [hf] at hg
    simp only [Option.map_some'] at hg
    injection hg with hg
    have hkey := List.find?_some hf
    simp only [beq_iff_eq] at hkey
    simp [hkey, hg]

theorem get_withNode_ne {f : Node T → Node T} (h : m.withNode i f = some m')
    (hij : j ≠ i) : m'.get j = m.get j := by
  rw [get_eq_find?, (withNode_some_eq h).1, find?_key_map, get_eq_find?]
  cases hf : m.slots.find? (fun p => p.1 == j) with
  | none => rfl
  | some p =>
    have hkey := List.find?_some hf
    simp only [beq_iff_eq] at hkey
    simp [hkey, hij]

theorem contains_congr (h : m'.slots.map Prod.fst = m.slots.map Prod.fst) :
    ∀ k, m'.contains k = m.contains k := by
  intro k
  have h1 := @contains_true_iff_mem T m' k
  have h2 := @contains_true_iff_mem T m k
  rw [h] at h1
  cases hc1 : m'.contains k <;> cases hc2 : m.contains k <;> simp_all

theorem contains_erase (m : IndexMap T) (i k : Nat) :
    (m.erase i).contains k = if k = i then false else m.contains k := by
  unfold contains
  by_cases hk : k = i
  · subst hk
    rw [get_erase_self]
    simp
  · rw [get_erase_ne m hk]
    simp [hk]

theorem contains_insert (m : IndexMap T) (n : Node T)
    (hk : ∀ k ∈ m.slots.map Prod.fst, 1 ≤ k ∧ k < m.fresh) (k : Nat) :
    (m.insert n).2.contains k = if k = m.fresh then true else m.contains k := by
  unfold contains
  by_cases hkf : k = m.fresh
  · subst hkf
    rw [get_insert_self hk]
    simp
  · rw [get_insert_ne hkf]
    simp [hkf]

end IndexMap

theorem headD_append {α : Type} (l1 l2 : List α) (d : α) :
    (l1 ++ l2).headD d = l1.headD (l2.headD d) := by
  cases l1 <;> simp

theorem segb_nil {T : Type} (m : IndexMap T) (pre after : Nat) :
    segb m pre [] after = true := rfl

theorem segb_cons {T : Type} (m : IndexMap T) (pre h after : Nat) (t : List Nat) :
    segb m pre (h :: t) after =
      ((match m.get h with
        | some node => node.pre == pre && node.next == t.headD after
        | none => false) && segb m h t after) := rfl

theorem segb_cons_iff {T : Type} (m : IndexMap T) (pre h after : Nat) (t : List Nat) :
    segb m pre (h :: t) after = true ↔
      (∃ node, m.get h = some node ∧ node.pre = pre ∧ node.next = t.headD after) ∧
        segb m h t after = true := by
  rw [segb_cons]
  cases hg : m.get h <;> simp [hg]

theorem segb_append {T : Type} (m : IndexMap T) (l1 l2 : List Nat)
    (pre after : Nat) :
    segb m pre (l1 ++ l2) after =
      (segb m pre l1 (l2.headD after) && segb m (l1.getLastD pre) l2 after) := by
  induction l1 generalizing pre with
  | nil => simp [segb]
  | cons h t ih =>
    rw [List.cons_append, segb_cons, segb_cons, List.getLastD_cons, ih,
      headD_append, Bool.and_assoc]

theorem segb_congr {T : Type} {m m' : IndexMap T} {l : List Nat}
    (hagree : ∀ h ∈ l, m'.get h = m.get h) (pre after : Nat) :
    segb m' pre l after = segb m pre l after := by
  induction l generalizing pre with
  | nil => rfl
  | cons h t ih =>
    rw [segb_cons, segb_cons, hagree h (List.mem_cons_self h t),
      ih (fun x hx => hagree x (List.mem_cons_of_mem h hx))]

theorem segb_live {T : Type} {m : IndexMap T} {l : List Nat} {pre after : Nat}
    (hseg : segb m pre l after = true) : ∀ h ∈ l, ∃ node, m.get h = some node := by
  induction l generalizing pre with
  | nil => intro h hm; simp at hm
  | cons h0 t ih =>
    intro h hm
    obtain ⟨⟨node, hn, -⟩, hrest⟩ := (segb_cons_iff m pre h0 after t).mp hseg
    rcases List.mem_cons.mp hm with rfl | hmt
    · exact ⟨node, hn⟩
    · exact ih hrest h hmt

namespace WF

variable {T : Type} {d : Deque} {m : IndexMap T} {hs : List Nat}

theorem pos_mem (w : WF d m hs) : ∀ h ∈ hs, 1 ≤ h ∧ h < m.fresh := by
  intro h hm
  exact w.keys_pos h (IndexMap.contains_key_mem ((w.live_iff h).mpr hm))

theorem zero_not_mem (w : WF d m hs) : 0 ∉ hs := by
  intro h0
  have := (w.pos_mem 0 h0).1
  omega

theorem length_le_slots (w : WF d m hs) : hs.length ≤ m.slots.length := by
  have hsub : hs ⊆ m.slots.map Prod.fst := by
    intro h hm
    exact IndexMap.contains_key_mem ((w.live_iff h).mpr hm)
  have := (w.nodup.subperm hsub).length_le
  simpa using this

theorem first_zero_iff (w : WF d m hs) : d.first = 0 ↔ hs = [] := by
  rw [w.first_eq]
  cases hs with
  | nil => simp
  | cons h t =>
    simp only [List.headD_cons]
    constructor
    · intro h0
      exact absurd ((w.pos_mem h (by simp)).1) (by omega)
    · intro h0
      simp at h0

theorem last_zero_iff (w : WF d m hs) : d.last = 0 ↔ hs = [] := by
  rw [w.last_eq]
  cases hh : hs.getLast? with
  | none =>
    rw [List.getLastD_eq_getLast?, hh]
    simp [List.getLast?_eq_none_iff.mp hh]
  | some x =>
    rw [List.getLastD_eq_getLast?, hh]
    have hx : x ∈ hs := List.mem_of_mem_getLast? hh
    have hpos := (w.pos_mem x hx).1
    simp only [Option.getD_some]
    constructor
    · intro h0; omega
    · intro h0
      subst h0
      simp at hh

theorem len_zero_iff (w : WF d m hs) : d.len = 0 ↔ hs = [] := by
  rw [w.len_eq, List.length_eq_zero]

end WF

theorem headD_ne_nil {α : Type} {l : List α} (h : l ≠ []) (a b : α) :
    l.headD a = l.headD b := by
  cases l <;> simp_all

theorem getLastD_ne_nil {α : Type} {l : List α} (h : l ≠ []) (a b : α) :
    l.getLastD a = l.getLastD b := by
  cases l with
  | nil => exact absurd rfl h
  | cons x t => rw [List.getLastD_cons, List.getLastD_cons]

theorem insert_keys_pos {T : Type} {m : IndexMap T} (n : Node T)
    (hk : ∀ k ∈ m.slots.map Prod.fst, 1 ≤ k ∧ k < m.fresh) (hf : 1 ≤ m.fresh) :
    ∀ k ∈ (m.insert n).2.slots.map Prod.fst, 1 ≤ k ∧ k < (m.insert n).2.fresh := by
  intro k hkm
  rw [IndexMap.insert_snd_slots, List.map_append] at hkm
  rw [IndexMap.insert_snd_fresh]
  rcases List.mem_append.mp hkm with h | h
  · have := hk k h
    omega
  · simp only [List.map_cons, List.map_nil, List.mem_singleton] at h
    omega

theorem getLastD_append_of_ne_nil {α : Type} (l1 : List α) {l2 : List α}
    (h : l2 ≠ []) (d : α) : (l1 ++ l2).getLastD d = l2.getLastD d := by
  rw [List.getLastD_eq_getLast?, List.getLastD_eq_getLast?,
    List.getLast?_append_of_ne_nil _ h]

theorem getLastD_zero_eq_nil {l : List Nat} (hpos : ∀ h ∈ l, 1 ≤ h)
    (h0 : l.getLastD 0 = 0) : l = [] := by
  by_contra hne
  rw [List.getLastD_eq_getLast?, List.getLast?_eq_getLast_of_ne_nil hne] at h0
  simp only [Option.getD_some] at h0
  have := hpos _ (List.getLast_mem hne)
  omega

theorem erase_keys_pos {T : Type} {m : IndexMap T} (i : Nat)
    (hk : ∀ k ∈ m.slots.map Prod.fst, 1 ≤ k ∧ k < m.fresh) :
    ∀ k ∈ (m.erase i).slots.map Prod.fst, 1 ≤ k ∧ k < m.fresh := by
  intro k hkm
  rw [IndexMap.erase_slots] at hkm
  obtain ⟨p, hp, rfl⟩ := List.mem_map.mp hkm
  exact hk p.1 (List.mem_map.mpr ⟨p, List.mem_of_mem_filter hp, rfl⟩)

theorem filter_key_map {T : Type} (f : Node T → Node T) (j k : Nat)
    (l : List (Nat × Node T)) :
    (l.map (fun p => if p.1 == j then (p.1, f p.2) else p)).filter (fun p => p.1 != k) =
      (l.filter (fun p => p.1 != k)).map (fun p => if p.1 == j then (p.1, f p.2) else p) := by
  induction l with
  | nil => rfl
  | cons p t ih =>
    by_cases hpj : p.1 = j
    · by_cases hpk : p.1 = k
      · rw [List.map_cons, if_pos (by simpa using hpj),
          List.filter_cons_of_neg (by simpa using hpk),
          List.filter_cons_of_neg (by simpa using hpk), ih]
      · rw [List.map_cons, if_pos (by simpa using hpj),
          List.filter_cons_of_pos (by simpa using hpk),
          List.filter_cons_of_pos (by simpa using hpk),
          List.map_cons, if_pos (by simpa using hpj), ih]
    · by_cases hpk : p.1 = k
      · rw [List.map_cons, if_neg (by simpa using hpj),
          List.filter_cons_of_neg (by simpa using hpk),
          List.filter_cons_of_neg (by simpa using hpk), ih]
      · rw [List.map_cons, if_neg (by simpa using hpj),
          List.filter_cons_of_pos (by simpa using hpk),
          List.filter_cons_of_pos (by simpa using hpk),
          List.map_cons, if_neg (by simpa using hpj), ih]

theorem map_id_on {α : Type} (l : List α) (g : α → α) (h : ∀ a ∈ l, g a = a) :
    l.map g = l := by
  induction l with
  | nil => rfl
  | cons x t ih =>
    rw [List.map_cons, h x (by simp), ih (fun a ha => h a (by simp [ha]))]

theorem indexMap_ext {T : Type} {m1 m2 : IndexMap T} (h1 : m1.slots = m2.slots)
    (h2 : m1.fresh = m2.fresh) : m1 = m2 := by
  cases m1
  cases m2
  simp_all

theorem erase_withNode_self {T : Type} {m m' : IndexMap T} {j : Nat}
    {f : Node T → Node T} (h : m.withNode j f = some m') :
    m'.erase j = m.erase j := by
  obtain ⟨hs, hf⟩ := IndexMap.withNode_some_eq h
  unfold IndexMap.erase
  rw [hs, hf]
  congr 1
  rw [filter_key_map]
  apply map_id_on
  intro p hp
  have := List.of_mem_filter hp
  simp only [bne_iff_ne, ne_eq] at this
  rw [if_neg (by simpa using this)]

theorem withNode_erase_comm {T : Type} {m m' : IndexMap T} {j k : Nat}
    {f : Node T → Node T} (h : m.withNode j f = some m') (hjk : j ≠ k) :
    (m.erase k).withNode j f = some (m'.erase k) := by
  have hget : ∃ n, m.get j = some n := by
    unfold IndexMap.withNode at h
    cases hg : m.get j <;> rw [hg] at h
    · exact absurd h (by simp)
    · exact ⟨_, rfl⟩
  obtain ⟨n, hn⟩ := hget
  have hgetE : (m.erase k).get j = some n := by
    rw [IndexMap.get_erase_ne m hjk, hn]
  obtain ⟨hs, hf⟩ := IndexMap.withNode_some_eq h
  have h1 : ((m.erase k).slots.map (fun p => if p.1 == j then (p.1, f p.2) else p))
      = (m'.erase k).slots := by
    rw [IndexMap.erase_slots, IndexMap.erase_slots, hs, filter_key_map]
  have h2 : (m.erase k).fresh = (m'.erase k).fresh := by
    rw [IndexMap.erase_fresh, IndexMap.erase_fresh, hf]
  unfold IndexMap.withNode
  rw [hgetE]
  exact congrArg some (indexMap_ext h1 h2)

theorem eraseList_withNode_mem {T : Type} :
    ∀ (hs : List Nat) (m m' : IndexMap T) (j : Nat) (f : Node T → Node T),
    m.withNode j f = some m' → j ∈ hs → eraseList m' hs = eraseList m hs := by
  intro hs
  induction hs with
  | nil =>
    intro _ _ _ _ _ hj
    simp at hj
  | cons h t ih =>
    intro m m' j f hw hj
    show eraseList (m'.erase h) t = eraseList (m.erase h) t
    by_cases hjh : j = h
    · subst hjh
      rw [erase_withNode_self hw]
    · have hjt : j ∈ t := by
        rcases List.mem_cons.mp hj with he | ht
        · exact absurd he hjh
        · exact ht
      exact ih _ _ j f (withNode_erase_comm hw hjh) hjt

theorem eraseList_fresh {T : Type} :
    ∀ (hs : List Nat) (m : IndexMap T), (eraseList m hs).fresh = m.fresh := by
  intro hs
  induction hs with
  | nil => intro m; rfl
  | cons h t ih =>
    intro m
    show (eraseList (m.erase h) t).fresh = m.fresh
    rw [ih]
    rfl

theorem contains_eraseList {T : Type} :
    ∀ (hs : List Nat) (m : IndexMap T) (k : Nat),
    (eraseList m hs).contains k = true ↔ (m.contains k = true ∧ k ∉ hs) := by
  intro hs
  induction hs with
  | nil =>
    intro m k
    simp [eraseList]
  | cons h t ih =>
    intro m k
    show (eraseList (m.erase h) t).contains k = true ↔ _
    rw [ih, IndexMap.contains_erase]
    by_cases hkh : k = h <;> simp [hkh]

theorem eraseList_keys_pos {T : Type} :
    ∀ (hs : List Nat) (m : IndexMap T),
    (∀ k ∈ m.slots.map Prod.fst, 1 ≤ k ∧ k < m.fresh) →
    ∀ k ∈ (eraseList m hs).slots.map Prod.fst, 1 ≤ k ∧ k < (eraseList m hs).fresh := by
  intro hs
  induction hs with
  | nil =>
    intro m hk
    exact hk
  | cons h t ih =>
    intro m hk k hkm
    exact ih (m.erase h) (erase_keys_pos h hk) k hkm

theorem push_back_wf {T : Type} {d : Deque} {m : IndexMap T} {hs : List Nat}
    (w : WF d m hs) (e : T) :
    ∃ d' m', Deque.push_back d e m = some (m.fresh, d', m') ∧
      WF d' m' (hs ++ [m.fresh]) := by
  have hfresh_notmem : m.fresh ∉ hs := fun hmem =>
    absurd (w.pos_mem _ hmem).2 (by omega)
  by_cases hlast : d.last = 0
  · have hnil : hs = [] := w.last_zero_iff.mp hlast
    subst hnil
    refine ⟨⟨m.fresh, m.fresh, d.len + 1⟩, (m.insert (Node.new e 0 0)).2, ?_, ?_⟩
    · simp only [Deque.push_back, IndexMap.insert_fst]
      rw [if_pos (by simpa using hlast)]
    · simp only [List.nil_append]
      constructor
      · exact List.nodup_singleton _
      · rw [w.len_eq]
        rfl
      · rfl
      · rfl
      · rw [segb_cons, IndexMap.get_insert_self w.keys_pos]
        rfl
      · intro h
        rw [IndexMap.contains_insert m _ w.keys_pos h]
        by_cases hf : h = m.fresh <;> simp [hf, w.live_iff h]
      · exact insert_keys_pos _ w.keys_pos w.fresh_pos
      · rw [IndexMap.insert_snd_fresh]
        omega
  · have hne : hs ≠ [] := fun h => hlast (w.last_zero_iff.mpr h)
    have hdecomp : hs.dropLast ++ [hs.getLast hne] = hs :=
      List.dropLast_append_getLast hne
    set hs' := hs.dropLast with hhs'
    set lastH := hs.getLast hne with hlastH0
    have hlastH : d.last = lastH := by
      rw [w.last_eq, ← hdecomp, List.getLastD_concat]
    -- the original chain, split at the last node
    have hchain := w.chain
    rw [← hdecomp, segb_append] at hchain
    have hchain1 : segb m 0 hs' ([lastH].headD 0) = true :=
      (Bool.and_eq_true_iff.mp hchain).1
    have hchain2 : segb m (hs'.getLastD 0) [lastH] 0 = true :=
      (Bool.and_eq_true_iff.mp hchain).2
    obtain ⟨nodeL, hgetL, hpreL, hnextL⟩ :=
      ((segb_cons_iff m _ lastH 0 []).mp hchain2).1
    -- the new node is inserted, and the old tail is relinked to it
    have hlast_lt : lastH < m.fresh := (w.pos_mem lastH (by rw [← hdecomp]; simp)).2
    have hget1L : (m.insert (Node.new e d.last 0)).2.get lastH = some nodeL := by
      rw [IndexMap.get_insert_ne (by omega), hgetL]
    obtain ⟨m2, hw2⟩ := IndexMap.withNode_isSome
      (f := fun n => { n with next := m.fresh }) hget1L
    rw [hlastH] at hw2
    refine ⟨⟨d.first, m.fresh, d.len + 1⟩, m2, ?_, ?_⟩
    · simp only [Deque.push_back, IndexMap.insert_fst]
      rw [if_neg (by simpa using hlast)]
      rw [← hlastH] at hw2
      rw [hw2]
    · rw [← hlastH] at hw2
      have hkeys2 := IndexMap.withNode_keys hw2
      have hfresh2 := IndexMap.withNode_fresh hw2
      rw [IndexMap.insert_snd_fresh] at hfresh2
      have hget2 : ∀ k, k ≠ d.last → k ≠ m.fresh →
          m2.get k = m.get k := by
        intro k hk1 hk2
        rw [IndexMap.get_withNode_ne hw2 hk1, IndexMap.get_insert_ne hk2]
      have hget2L : m2.get lastH = some { nodeL with next := m.fresh } := by
        rw [← hlastH] at hget1L ⊢
        exact IndexMap.get_withNode_self hw2 hget1L
      have hget2F : m2.get m.fresh = some (Node.new e d.last 0) := by
        rw [IndexMap.get_withNode_ne hw2 (by omega), IndexMap.get_insert_self w.keys_pos]
      have hnd : (hs' ++ [lastH]).Nodup := by
        rw [hdecomp]; exact w.nodup
      have hmem_ne : ∀ h ∈ hs', h ≠ lastH ∧ h ≠ m.fresh := by
        intro h hm
        constructor
        · intro heq
          rcases List.nodup_append.mp hnd with ⟨-, -, hdisj⟩
          exact hdisj hm (by simp [heq])
        · intro heq
          exact hfresh_notmem (by rw [← hdecomp]; exact List.mem_append_left _ (heq ▸ hm))
      constructor
      · rw [List.nodup_append]
        exact ⟨w.nodup, List.nodup_singleton _, by
          intro a ha hb
          simp only [List.mem_singleton] at hb
          exact hfresh_notmem (hb ▸ ha)⟩
      · rw [w.len_eq]
        simp
      · rw [w.first_eq, headD_append]
        exact headD_ne_nil hne _ _
      · rw [List.getLastD_concat]
      · rw [← hdecomp, List.append_assoc, segb_append, segb_append]
        have hc1 : segb m2 0 hs' (([lastH] ++ [m.fresh]).headD 0) = true := by
          have : ([lastH] ++ [m.fresh]).headD 0 = [lastH].headD 0 := rfl
          rw [this]
          rw [segb_congr (fun h hm => hget2 h (hlastH ▸ (hmem_ne h hm).1)
            (hmem_ne h hm).2) 0 ([lastH].headD 0)]
          exact hchain1
        have hc2 : segb m2 (hs'.getLastD 0) [lastH] ([m.fresh].headD 0) = true := by
          rw [segb_cons, hget2L]
          simp [hpreL, segb_nil]
        have hc3 : segb m2 (([lastH]).getLastD (hs'.getLastD 0)) [m.fresh] 0 = true := by
          rw [segb_cons, hget2F]
          simp only [List.getLastD_cons, List.getLastD_nil]
          simp [Node.new, hlastH, segb_nil]
        rw [hc1, hc2, hc3]
        rfl
      · intro k
        rw [IndexMap.contains_congr hkeys2 k,
          IndexMap.contains_insert m _ w.keys_pos k]
        by_cases hkf : k = m.fresh <;> simp [hkf, w.live_iff k]
      · intro k hk
        rw [hkeys2] at hk
        have := insert_keys_pos (Node.new e d.last 0) w.keys_pos w.fresh_pos k hk
        rw [IndexMap.insert_snd_fresh] at this
        omega
      · omega

theorem push_front_wf {T : Type} {d : Deque} {m : IndexMap T} {hs : List Nat}
    (w : WF d m hs) (e : T) :
    ∃ d' m', Deque.push_front d e m = some (m.fresh, d', m') ∧
      WF d' m' (m.fresh :: hs) := by
  have hfresh_notmem : m.fresh ∉ hs := fun hmem =>
    absurd (w.pos_mem _ hmem).2 (by omega)
  by_cases hfirst : d.first = 0
  · have hnil : hs = [] := w.first_zero_iff.mp hfirst
    subst hnil
    refine ⟨⟨m.fresh, m.fresh, d.len + 1⟩, (m.insert (Node.new e 0 0)).2, ?_, ?_⟩
    · simp only [Deque.push_front, IndexMap.insert_fst]
      rw [if_pos (by simpa using hfirst)]
    · constructor
      · exact List.nodup_singleton _
      · rw [w.len_eq]
        rfl
      · rfl
      · rfl
      · rw [segb_cons, IndexMap.get_insert_self w.keys_pos]
        rfl
      · intro h
        rw [IndexMap.contains_insert m _ w.keys_pos h]
        by_cases hf : h = m.fresh <;> simp [hf, w.live_iff h]
      · exact insert_keys_pos _ w.keys_pos w.fresh_pos
      · rw [IndexMap.insert_snd_fresh]
        omega
  · have hne : hs ≠ [] := fun h => hfirst (w.first_zero_iff.mpr h)
    obtain ⟨headH, t, hdecomp⟩ : ∃ h t, hs = h :: t := by
      cases hs with
      | nil => exact absurd rfl hne
      | cons h t => exact ⟨h, t, rfl⟩
    have hheadH : d.first = headH := by
      rw [w.first_eq, hdecomp]
      rfl
    have hchain := w.chain
    rw [hdecomp] at hchain
    obtain ⟨⟨nodeH, hgetH, hpreH, hnextH⟩, hchainT⟩ :=
      (segb_cons_iff m 0 headH 0 t).mp hchain
    have hhead_lt : headH < m.fresh :=
      (w.pos_mem headH (by rw [hdecomp]; simp)).2
    have hget1H : (m.insert (Node.new e 0 d.first)).2.get headH = some nodeH := by
      rw [IndexMap.get_insert_ne (by omega), hgetH]
    obtain ⟨m2, hw2⟩ := IndexMap.withNode_isSome
      (f := fun n => { n with pre := m.fresh }) hget1H
    rw [hheadH] at hw2
    refine ⟨⟨m.fresh, d.last, d.len + 1⟩, m2, ?_, ?_⟩
    · simp only [Deque.push_front, IndexMap.insert_fst]
      rw [if_neg (by simpa using hfirst)]
      rw [← hheadH] at hw2
      rw [hw2]
    · rw [← hheadH] at hw2
      have hkeys2 := IndexMap.withNode_keys hw2
      have hfresh2 := IndexMap.withNode_fresh hw2
      rw [IndexMap.insert_snd_fresh] at hfresh2
      have hget2 : ∀ k, k ≠ d.first → k ≠ m.fresh → m2.get k = m.get k := by
        intro k hk1 hk2
        rw [IndexMap.get_withNode_ne hw2 hk1, IndexMap.get_insert_ne hk2]
      have hget2H : m2.get headH = some { nodeH with pre := m.fresh } := by
        rw [← hheadH] at hget1H ⊢
        exact IndexMap.get_withNode_self hw2 hget1H
      have hget2F : m2.get m.fresh = some (Node.new e 0 d.first) := by
        rw [IndexMap.get_withNode_ne hw2 (by omega), IndexMap.get_insert_self w.keys_pos]
      have hmem_ne : ∀ h ∈ t, h ≠ headH ∧ h ≠ m.fresh := by
        intro h hm
        constructor
        · intro heq
          have := w.nodup
          rw [hdecomp, List.nodup_cons] at this
          exact this.1 (heq ▸ hm)
        · intro heq
          exact hfresh_notmem (by rw [hdecomp]; exact List.mem_cons_of_mem _ (heq ▸ hm))
      constructor
      · rw [List.nodup_cons]
        exact ⟨hfresh_notmem, w.nodup⟩
      · rw [w.len_eq]
        rfl
      · rfl
      · rw [w.last_eq, List.getLastD_cons]
        exact getLastD_ne_nil hne _ _
      · rw [hdecomp, segb_cons, hget2F]
        have hrest : segb m2 m.fresh (headH :: t) 0 = true := by
          rw [segb_cons, hget2H]
          have hT : segb m2 headH t 0 = true := by
            rw [segb_congr (fun h hm => hget2 h (hheadH ▸ (hmem_ne h hm).1)
              (hmem_ne h hm).2) headH 0]
            exact hchainT
          simp [hnextH, hT]
        rw [hrest]
        simp [Node.new, hheadH]
      · intro k
        rw [IndexMap.contains_congr hkeys2 k,
          IndexMap.contains_insert m _ w.keys_pos k]
        by_cases hkf : k = m.fresh <;> simp [hkf, w.live_iff k, hdecomp]
      · intro k hk
        rw [hkeys2] at hk
        have := insert_keys_pos (Node.new e 0 d.first) w.keys_pos w.fresh_pos k hk
        rw [IndexMap.insert_snd_fresh] at this
        omega
      · omega

theorem pop_front_unchecked_wf {T : Type} {d : Deque} {m : IndexMap T}
    {h : Nat} {t : List Nat} (w : WF d m (h :: t)) :
    ∃ node d' m', m.get h = some node ∧
      Deque.pop_front_unchecked d m = some (node.elem, d', m') ∧ WF d' m' t ∧
      eraseList m' t = eraseList (m.erase h) t := by
  have hfirst : d.first = h := by rw [w.first_eq]; rfl
  obtain ⟨⟨node, hget, hpre, hnext⟩, hchainT⟩ := (segb_cons_iff m 0 h 0 t).mp w.chain
  have hremove : m.remove d.first = some (node, m.erase h) := by
    rw [hfirst]
    exact IndexMap.remove_of_get hget
  have hnd := w.nodup
  rw [List.nodup_cons] at hnd
  by_cases hnil : t = []
  · subst hnil
    have hnext0 : node.next = 0 := by rw [hnext]; rfl
    refine ⟨node, ⟨node.next, 0, d.len - 1⟩, m.erase h, hget, ?_, ?_, rfl⟩
    · simp only [Deque.pop_front_unchecked]
      rw [hremove]
      simp [hnext0]
    · constructor
      · exact List.nodup_nil
      · simp [w.len_eq]
      · simp [hnext0]
      · rfl
      · rfl
      · intro k
        rw [IndexMap.contains_erase]
        by_cases hkh : k = h <;> simp [hkh, w.live_iff k]
      · exact erase_keys_pos h w.keys_pos
      · exact w.fresh_pos
  · obtain ⟨x, t', rfl⟩ : ∃ x t', t = x :: t' := by
      cases t with
      | nil => exact absurd rfl hnil
      | cons x t' => exact ⟨x, t', rfl⟩
    have hxt : node.next = x := by rw [hnext]; rfl
    obtain ⟨⟨nodeX, hgetX, hpreX, hnextX⟩, hchainT'⟩ :=
      (segb_cons_iff m h x 0 t').mp hchainT
    have hxh : x ≠ h := by
      intro he
      exact hnd.1 (by simp [he])
    have hget1X : (m.erase h).get x = some nodeX := by
      rw [IndexMap.get_erase_ne m hxh, hgetX]
    obtain ⟨m2, hw2⟩ := IndexMap.withNode_isSome (f := fun n => { n with pre := 0 }) hget1X
    have hnext_ne : ¬ node.next = 0 := by
      rw [hxt]
      have := (w.pos_mem x (by simp)).1
      omega
    refine ⟨node, ⟨node.next, d.last, d.len - 1⟩, m2, hget, ?_, ?_,
      eraseList_withNode_mem _ _ _ _ _ hw2 (by simp)⟩
    · simp only [Deque.pop_front_unchecked]
      rw [hremove]
      have hx0 : ¬ x = 0 := by
        have := (w.pos_mem x (by simp)).1
        omega
      simp [hxt, hx0, hw2]
    · have hkeys2 := IndexMap.withNode_keys hw2
      have hfresh2 := IndexMap.withNode_fresh hw2
      rw [IndexMap.erase_fresh] at hfresh2
      have hget2 : ∀ k, k ≠ x → k ≠ h → m2.get k = m.get k := by
        intro k hk1 hk2
        rw [IndexMap.get_withNode_ne hw2 hk1, IndexMap.get_erase_ne m hk2]
      have hget2X : m2.get x = some { nodeX with pre := 0 } :=
        IndexMap.get_withNode_self hw2 hget1X
      have hndt : x ∉ t' ∧ t'.Nodup := List.nodup_cons.mp hnd.2
      constructor
      · exact hnd.2
      · simp [w.len_eq]
      · simp [hxt]
      · show d.last = (x :: t').getLastD 0
        rw [w.last_eq, List.getLastD_cons]
        exact getLastD_ne_nil (List.cons_ne_nil x t') _ _
      · rw [segb_cons, hget2X]
        have hT : segb m2 x t' 0 = true := by
          rw [segb_congr (fun k hk => hget2 k (fun he => hndt.1 (he ▸ hk))
            (fun he => hnd.1 (List.mem_cons_of_mem _ (he ▸ hk)))) x 0]
          exact hchainT'
        simp [hnextX, hT, segb_nil]
      · intro k
        rw [IndexMap.contains_congr hkeys2 k, IndexMap.contains_erase]
        by_cases hkh : k = h
        · subst hkh
          simp [hnd.1]
        · rw [if_neg hkh, w.live_iff k]
          simp [hkh]
      · intro k hk
        rw [hkeys2] at hk
        have := erase_keys_pos h w.keys_pos k hk
        omega
      · rw [hfresh2]
        exact w.fresh_pos

theorem pop_back_unchecked_wf {T : Type} {d : Deque} {m : IndexMap T}
    {hs' : List Nat} {lastH : Nat} (w : WF d m (hs' ++ [lastH])) :
    ∃ node d' m', m.get lastH = some node ∧
      Deque.pop_back_unchecked d m = some (node.elem, d', m') ∧ WF d' m' hs' := by
  have hlast : d.last = lastH := by rw [w.last_eq, List.getLastD_concat]
  have hchain := w.chain
  rw [segb_append] at hchain
  have hchain1 : segb m 0 hs' ([lastH].headD 0) = true :=
    (Bool.and_eq_true_iff.mp hchain).1
  have hchain2 : segb m (hs'.getLastD 0) [lastH] 0 = true :=
    (Bool.and_eq_true_iff.mp hchain).2
  obtain ⟨nodeL, hget, hpreL, hnextL⟩ := ((segb_cons_iff m _ lastH 0 []).mp hchain2).1
  have hremove : m.remove d.last = some (nodeL, m.erase lastH) := by
    rw [hlast]
    exact IndexMap.remove_of_get hget
  have hnd := w.nodup
  have hlast_notmem : lastH ∉ hs' := by
    rcases List.nodup_append.mp hnd with ⟨-, -, hdisj⟩
    intro hmem
    exact hdisj hmem (by simp)
  by_cases hnil : hs' = []
  · subst hnil
    have hpre0 : nodeL.pre = 0 := by rw [hpreL]; rfl
    refine ⟨nodeL, ⟨0, nodeL.pre, d.len - 1⟩, m.erase lastH, hget, ?_, ?_⟩
    · simp only [Deque.pop_back_unchecked]
      rw [hremove]
      simp [hpre0]
    · constructor
      · exact List.nodup_nil
      · simp [w.len_eq]
      · rfl
      · simp [hpre0]
      · rfl
      · intro k
        rw [IndexMap.contains_erase]
        by_cases hkh : k = lastH <;> simp [hkh, w.live_iff k]
      · exact erase_keys_pos lastH w.keys_pos
      · exact w.fresh_pos
  · have hdecomp : hs'.dropLast ++ [hs'.getLast hnil] = hs' :=
      List.dropLast_append_getLast hnil
    set hs'' := hs'.dropLast with hhs''
    set p := hs'.getLast hnil with hp0
    have hpreP : nodeL.pre = p := by
      rw [hpreL, ← hdecomp, List.getLastD_concat]
    rw [← hdecomp, segb_append] at hchain1
    have hc1 : segb m 0 hs'' ([p].headD ([lastH].headD 0)) = true :=
      (Bool.and_eq_true_iff.mp hchain1).1
    have hc2 : segb m (hs''.getLastD 0) [p] ([lastH].headD 0) = true :=
      (Bool.and_eq_true_iff.mp hchain1).2
    obtain ⟨nodeP, hgetP, hprePP, hnextPP⟩ :=
      ((segb_cons_iff m _ p ([lastH].headD 0) []).mp hc2).1
    have hplast : p ≠ lastH := by
      intro he
      exact hlast_notmem (he ▸ (by rw [← hdecomp]; simp))
    have hget1P : (m.erase lastH).get p = some nodeP := by
      rw [IndexMap.get_erase_ne m hplast, hgetP]
    obtain ⟨m2, hw2⟩ := IndexMap.withNode_isSome (f := fun n => { n with next := 0 }) hget1P
    have hpre_ne : ¬ nodeL.pre = 0 := by
      rw [hpreP]
      have : 1 ≤ p := (w.pos_mem p (by rw [← hdecomp]; simp)).1
      omega
    refine ⟨nodeL, ⟨d.first, nodeL.pre, d.len - 1⟩, m2, hget, ?_, ?_⟩
    · simp only [Deque.pop_back_unchecked]
      rw [hremove]
      have hp0 : ¬ p = 0 := by
        have : 1 ≤ p := (w.pos_mem p (by rw [← hdecomp]; simp)).1
        omega
      simp [hpreP, hp0, hw2]
    · have hkeys2 := IndexMap.withNode_keys hw2
      have hfresh2 := IndexMap.withNode_fresh hw2
      rw [IndexMap.erase_fresh] at hfresh2
      have hget2 : ∀ k, k ≠ p → k ≠ lastH → m2.get k = m.get k := by
        intro k hk1 hk2
        rw [IndexMap.get_withNode_ne hw2 hk1, IndexMap.get_erase_ne m hk2]
      have hget2P : m2.get p = some { nodeP with next := 0 } :=
        IndexMap.get_withNode_self hw2 hget1P
      have hnd' : hs'.Nodup := (List.nodup_append.mp hnd).1
      have hmem_ne : ∀ k ∈ hs'', k ≠ p ∧ k ≠ lastH := by
        intro k hk
        constructor
        · intro he
          have := hnd'
          rw [← hdecomp, List.nodup_append] at this
          exact this.2.2 hk (by simp [he])
        · intro he
          exact hlast_notmem (by rw [← hdecomp]; exact List.mem_append_left _ (he ▸ hk))
      constructor
      · exact hnd'
      · rw [w.len_eq]
        simp
      · show d.first = hs'.headD 0
        rw [w.first_eq, headD_append]
        exact headD_ne_nil hnil _ _
      · simp [hpreL]
      · rw [← hdecomp, segb_append]
        have hx1 : segb m2 0 hs'' ([p].headD 0) = true := by
          rw [segb_congr (fun k hk => hget2 k (hmem_ne k hk).1 (hmem_ne k hk).2) 0 _]
          exact hc1
        have hx2 : segb m2 (hs''.getLastD 0) [p] 0 = true := by
          rw [segb_cons, hget2P]
          simp [hprePP, segb_nil]
        rw [hx1, hx2]
        rfl
      · intro k
        rw [IndexMap.contains_congr hkeys2 k, IndexMap.contains_erase]
        by_cases hkh : k = lastH
        · subst hkh
          simp [hlast_notmem]
        · rw [if_neg hkh, w.live_iff k]
          simp [hkh]
      · intro k hk
        rw [hkeys2] at hk
        have := erase_keys_pos lastH w.keys_pos k hk
        omega
      · rw [hfresh2]
        exact w.fresh_pos

theorem remove_red_only {T : Type} (d : Deque) (m : IndexMap T) (i : Nat) {node : Node T}
    (hrem : m.remove i = some (node, m.erase i)) (hp : node.pre = 0) (hn : node.next = 0) :
    Deque.remove d i m =
      some (node.elem, { first := 0, last := 0, len := d.len - 1 }, m.erase i) := by
  simp only [Deque.remove]
  rw [hrem]
  simp [hp, hn]

theorem remove_red_tail {T : Type} (d : Deque) (m : IndexMap T) (i : Nat) {node : Node T}
    (hrem : m.remove i = some (node, m.erase i)) (hp : node.pre ≠ 0) (hn : node.next = 0) :
    Deque.remove d i m =
      match (m.erase i).withNode node.pre (fun n => { n with next := 0 }) with
      | none => none
      | some m2 =>
        some (node.elem, { first := d.first, last := node.pre, len := d.len - 1 }, m2) := by
  obtain ⟨pp, hpp⟩ := Nat.exists_eq_succ_of_ne_zero hp
  simp only [Deque.remove]
  rw [hrem]
  simp [hpp, hn]

theorem remove_red_head {T : Type} (d : Deque) (m : IndexMap T) (i : Nat) {node : Node T}
    (hrem : m.remove i = some (node, m.erase i)) (hp : node.pre = 0) (hn : node.next ≠ 0) :
    Deque.remove d i m =
      match (m.erase i).withNode node.next (fun n => { n with pre := 0 }) with
      | none => none
      | some m2 =>
        some (node.elem, { first := node.next, last := d.last, len := d.len - 1 }, m2) := by
  obtain ⟨nn, hnn⟩ := Nat.exists_eq_succ_of_ne_zero hn
  simp only [Deque.remove]
  rw [hrem]
  simp [hp, hnn]

theorem remove_red_mid {T : Type} (d : Deque) (m : IndexMap T) (i : Nat) {node : Node T}
    (hrem : m.remove i = some (node, m.erase i)) (hp : node.pre ≠ 0) (hn : node.next ≠ 0) :
    Deque.remove d i m =
      match (m.erase i).withNode node.pre (fun n => { n with next := node.next }) with
      | none => none
      | some m2 =>
        match m2.withNode node.next (fun n => { n with pre := node.pre }) with
        | none => none
        | some m3 =>
          some (node.elem, { first := d.first, last := d.last, len := d.len - 1 }, m3) := by
  obtain ⟨pp, hpp⟩ := Nat.exists_eq_succ_of_ne_zero hp
  obtain ⟨nn, hnn⟩ := Nat.exists_eq_succ_of_ne_zero hn
  simp only [Deque.remove]
  rw [hrem]
  simp [hpp, hnn]

theorem remove_wf {T : Type} {d : Deque} {m : IndexMap T} {l1 l2 : List Nat} {h : Nat}
    (w : WF d m (l1 ++ h :: l2)) :
    ∃ node d' m', m.get h = some node ∧
      Deque.remove d h m = some (node.elem, d', m') ∧
      WF d' m' (l1 ++ l2) ∧
      d'.len = d.len - 1 ∧
      (node.pre = 0 ∧ node.next = 0 →
        d'.first = 0 ∧ d'.last = 0 ∧ m' = m.erase h) ∧
      (node.pre ≠ 0 ∧ node.next = 0 →
        d'.first = d.first ∧ d'.last = node.pre ∧
        ∃ nodeP, m.get node.pre = some nodeP ∧
          m'.get node.pre = some { nodeP with next := 0 }) ∧
      (node.pre = 0 ∧ node.next ≠ 0 →
        d'.last = d.last ∧ d'.first = node.next ∧
        ∃ nodeS, m.get node.next = some nodeS ∧
          m'.get node.next = some { nodeS with pre := 0 }) ∧
      (node.pre ≠ 0 ∧ node.next ≠ 0 →
        d'.first = d.first ∧ d'.last = d.last ∧
        (∃ nodeP, m.get node.pre = some nodeP ∧
          m'.get node.pre = some { nodeP with next := node.next }) ∧
        (∃ nodeS, m.get node.next = some nodeS ∧
          m'.get node.next = some { nodeS with pre := node.pre })) := by
  have hnd := w.nodup
  rcases List.nodup_append.mp hnd with ⟨hndl1, hndc, hdisj⟩
  have hh_notl1 : h ∉ l1 := fun hm => hdisj hm (by simp)
  have hh_notl2 : h ∉ l2 := (List.nodup_cons.mp hndc).1
  have hndl2 : l2.Nodup := (List.nodup_cons.mp hndc).2
  have hnd' : (l1 ++ l2).Nodup :=
    hnd.sublist (List.Sublist.append_left (List.sublist_cons_self h l2) l1)
  have hchain := w.chain
  rw [segb_append] at hchain
  have hch1 : segb m 0 l1 ((h :: l2).headD 0) = true :=
    (Bool.and_eq_true_iff.mp hchain).1
  have hch2 : segb m (l1.getLastD 0) (h :: l2) 0 = true :=
    (Bool.and_eq_true_iff.mp hchain).2
  obtain ⟨⟨node, hget, hpre, hnext⟩, hchl2⟩ := (segb_cons_iff m _ h 0 l2).mp hch2
  have hremove : m.remove h = some (node, m.erase h) := IndexMap.remove_of_get hget
  have hlive_core : ∀ k, (m.erase h).contains k = true ↔ k ∈ l1 ++ l2 := by
    intro k
    rw [IndexMap.contains_erase]
    by_cases hkh : k = h
    · subst hkh
      simp [hh_notl1, hh_notl2]
    · rw [if_neg hkh, w.live_iff k]
      simp [hkh]
  by_cases hl2 : l2 = []
  · subst hl2
    have hn0 : node.next = 0 := by rw [hnext]; rfl
    by_cases hl1 : l1 = []
    · subst hl1
      have hp0 : node.pre = 0 := by rw [hpre]; rfl
      refine ⟨node, ⟨0, 0, d.len - 1⟩, m.erase h, hget,
        remove_red_only d m h hremove hp0 hn0, ?_, rfl, ?_, ?_, ?_, ?_⟩
      · constructor
        · exact List.nodup_nil
        · simp [w.len_eq]
        · rfl
        · rfl
        · rfl
        · exact hlive_core
        · exact erase_keys_pos h w.keys_pos
        · exact w.fresh_pos
      · exact fun _ => ⟨rfl, rfl, rfl⟩
      · exact fun hc => absurd hp0 hc.1
      · exact fun hc => absurd hn0 hc.2
      · exact fun hc => absurd hp0 hc.1
    · have hdecomp : l1.dropLast ++ [l1.getLast hl1] = l1 :=
        List.dropLast_append_getLast hl1
      set l1' := l1.dropLast with hl1def
      set p := l1.getLast hl1 with hpdef
      have hpp : node.pre = p := by rw [hpre, ← hdecomp, List.getLastD_concat]
      have hp_pos : 1 ≤ p := (w.pos_mem p (by rw [← hdecomp]; simp)).1
      have hp_ne : node.pre ≠ 0 := by rw [hpp]; omega
      rw [← hdecomp, segb_append] at hch1
      have hc11 : segb m 0 l1' ([p].headD ((h :: ([] : List Nat)).headD 0)) = true :=
        (Bool.and_eq_true_iff.mp hch1).1
      have hc12 : segb m (l1'.getLastD 0) [p] ((h :: ([] : List Nat)).headD 0) = true :=
        (Bool.and_eq_true_iff.mp hch1).2
      obtain ⟨nodeP, hgetP, hpreP, hnextP⟩ :=
        ((segb_cons_iff m _ p _ []).mp hc12).1
      have hph : p ≠ h := by
        intro he
        exact hh_notl1 (he ▸ (show p ∈ l1 by rw [← hdecomp]; simp))
      have hgetEP : (m.erase h).get node.pre = some nodeP := by
        rw [hpp, IndexMap.get_erase_ne m hph, hgetP]
      obtain ⟨m2, hw2⟩ :=
        IndexMap.withNode_isSome (f := fun n => { n with next := 0 }) hgetEP
      have hget2P : m2.get node.pre = some { nodeP with next := 0 } :=
        IndexMap.get_withNode_self hw2 hgetEP
      have hkeys2 := IndexMap.withNode_keys hw2
      have hfresh2 := IndexMap.withNode_fresh hw2
      rw [IndexMap.erase_fresh] at hfresh2
      have hget2 : ∀ k, k ≠ p → k ≠ h → m2.get k = m.get k := by
        intro k hk1 hk2
        rw [IndexMap.get_withNode_ne hw2 (hpp ▸ hk1), IndexMap.get_erase_ne m hk2]
      refine ⟨node, ⟨d.first, node.pre, d.len - 1⟩, m2, hget, ?_, ?_, rfl, ?_, ?_, ?_, ?_⟩
      · rw [remove_red_tail d m h hremove hp_ne hn0, hw2]
      · constructor
        · simpa using hndl1
        · simp [w.len_eq]
        · show d.first = (l1 ++ []).headD 0
          rw [List.append_nil, w.first_eq, headD_append]
          exact headD_ne_nil hl1 _ _
        · show node.pre = (l1 ++ []).getLastD 0
          rw [List.append_nil, hpre]
        · show segb m2 0 (l1 ++ []) 0 = true
          rw [List.append_nil, ← hdecomp, segb_append]
          have hx1 : segb m2 0 l1' ([p].headD 0) = true := by
            have hag : ∀ k ∈ l1', m2.get k = m.get k := by
              intro k hk
              have hkp : k ≠ p := by
                intro he
                have := hndl1
                rw [← hdecomp, List.nodup_append] at this
                exact this.2.2 hk (by simp [he])
              have hkh : k ≠ h := fun he =>
                hh_notl1 (he ▸ (by rw [← hdecomp]; exact List.mem_append_left _ hk))
              exact hget2 k hkp hkh
            rw [segb_congr hag 0 ([p].headD 0)]
            exact hc11
          have hx2 : segb m2 (l1'.getLastD 0) [p] 0 = true := by
            rw [segb_cons]
            have hg := hget2P
            rw [hpp] at hg
            rw [hg]
            simp [hpreP, segb_nil]
          rw [hx1, hx2]
          rfl
        · intro k
          rw [IndexMap.contains_congr hkeys2 k]
          exact hlive_core k
        · intro k hk
          rw [hkeys2] at hk
          have := erase_keys_pos h w.keys_pos k hk
          omega
        · rw [hfresh2]
          exact w.fresh_pos
      · exact fun hc => absurd hc.1 hp_ne
      · exact fun _ => ⟨rfl, rfl, nodeP, by rw [hpp]; exact hgetP, hget2P⟩
      · exact fun hc => absurd hn0 hc.2
      · exact fun hc => absurd hn0 hc.2
  · obtain ⟨x, l2', rfl⟩ : ∃ x l2', l2 = x :: l2' := by
      cases l2 with
      | nil => exact absurd rfl hl2
      | cons x l2' => exact ⟨x, l2', rfl⟩
    have hxn : node.next = x := by rw [hnext]; rfl
    have hx_pos : 1 ≤ x := (w.pos_mem x (by simp)).1
    have hn_ne : node.next ≠ 0 := by rw [hxn]; omega
    obtain ⟨⟨nodeX, hgetX, hpreX, hnextX⟩, hchl2'⟩ :=
      (segb_cons_iff m h x 0 l2').mp hchl2
    have hxh : x ≠ h := fun he => hh_notl2 (he ▸ (by simp))
    have hgetEX : (m.erase h).get node.next = some nodeX := by
      rw [hxn, IndexMap.get_erase_ne m hxh, hgetX]
    by_cases hl1 : l1 = []
    · subst hl1
      have hp0 : node.pre = 0 := by rw [hpre]; rfl
      obtain ⟨m2, hw2⟩ :=
        IndexMap.withNode_isSome (f := fun n => { n with pre := 0 }) hgetEX
      have hget2X : m2.get node.next = some { nodeX with pre := 0 } :=
        IndexMap.get_withNode_self hw2 hgetEX
      have hkeys2 := IndexMap.withNode_keys hw2
      have hfresh2 := IndexMap.withNode_fresh hw2
      rw [IndexMap.erase_fresh] at hfresh2
      have hget2 : ∀ k, k ≠ x → k ≠ h → m2.get k = m.get k := by
        intro k hk1 hk2
        rw [IndexMap.get_withNode_ne hw2 (hxn ▸ hk1), IndexMap.get_erase_ne m hk2]
      refine ⟨node, ⟨node.next, d.last, d.len - 1⟩, m2, hget, ?_, ?_, rfl, ?_, ?_, ?_, ?_⟩
      · rw [remove_red_head d m h hremove hp0 hn_ne, hw2]
      · constructor
        · exact hndl2
        · simp [w.len_eq]
        · simp [hxn]
        · show d.last = ([] ++ x :: l2').getLastD 0
          rw [List.nil_append, w.last_eq, List.nil_append, List.getLastD_cons]
          exact getLastD_ne_nil (List.cons_ne_nil x l2') _ _
        · show segb m2 0 ([] ++ x :: l2') 0 = true
          rw [List.nil_append, segb_cons]
          have hg := hget2X
          rw [hxn] at hg
          rw [hg]
          have hT : segb m2 x l2' 0 = true := by
            have hag : ∀ k ∈ l2', m2.get k = m.get k := by
              intro k hk
              have hkx : k ≠ x := by
                intro he
                exact (List.nodup_cons.mp hndl2).1 (he ▸ hk)
              have hkh : k ≠ h := fun he =>
                hh_notl2 (he ▸ List.mem_cons_of_mem _ hk)
              exact hget2 k hkx hkh
            rw [segb_congr hag x 0]
            exact hchl2'
          simp [hnextX, hT]
        · intro k
          rw [IndexMap.contains_congr hkeys2 k]
          exact hlive_core k
        · intro k hk
          rw [hkeys2] at hk
          have := erase_keys_pos h w.keys_pos k hk
          omega
        · rw [hfresh2]
          exact w.fresh_pos
      · exact fun hc => absurd hc.2 hn_ne
      · exact fun hc => absurd hp0 hc.1
      · exact fun _ => ⟨rfl, rfl, nodeX, by rw [hxn]; exact hgetX, hget2X⟩
      · exact fun hc => absurd hp0 hc.1
    · have hdecomp : l1.dropLast ++ [l1.getLast hl1] = l1 :=
        List.dropLast_append_getLast hl1
      set l1' := l1.dropLast with hl1def
      set p := l1.getLast hl1 with hpdef
      have hp_meml1 : p ∈ l1 := by rw [← hdecomp]; simp
      have hpp : node.pre = p := by rw [hpre, ← hdecomp, List.getLastD_concat]
      have hp_pos : 1 ≤ p := (w.pos_mem p (List.mem_append_left _ hp_meml1)).1
      have hp_ne : node.pre ≠ 0 := by rw [hpp]; omega
      rw [← hdecomp, segb_append] at hch1
      have hc11 : segb m 0 l1' ([p].headD ((h :: x :: l2').headD 0)) = true :=
        (Bool.and_eq_true_iff.mp hch1).1
      have hc12 : segb m (l1'.getLastD 0) [p] ((h :: x :: l2').headD 0) = true :=
        (Bool.and_eq_true_iff.mp hch1).2
      obtain ⟨nodeP, hgetP, hpreP, hnextP⟩ :=
        ((segb_cons_iff m _ p _ []).mp hc12).1
      have hph : p ≠ h := fun he => hh_notl1 (he ▸ hp_meml1)
      have hpx : p ≠ x := by
        intro he
        exact hdisj hp_meml1 (he ▸ (by simp))
      have hgetEP : (m.erase h).get node.pre = some nodeP := by
        rw [hpp, IndexMap.get_erase_ne m hph, hgetP]
      obtain ⟨m2, hw2⟩ :=
        IndexMap.withNode_isSome (f := fun n => { n with next := node.next }) hgetEP
      have hget2P : m2.get node.pre = some { nodeP with next := node.next } :=
        IndexMap.get_withNode_self hw2 hgetEP
      have hget2X : m2.get node.next = some nodeX := by
        rw [IndexMap.get_withNode_ne hw2 (by rw [hxn, hpp]; exact fun he => hpx he.symm)]
        exact hgetEX
      obtain ⟨m3, hw3⟩ :=
        IndexMap.withNode_isSome (f := fun n => { n with pre := node.pre }) hget2X
      have hget3X : m3.get node.next = some { nodeX with pre := node.pre } :=
        IndexMap.get_withNode_self hw3 hget2X
      have hget3P : m3.get node.pre = some { nodeP with next := node.next } := by
        rw [IndexMap.get_withNode_ne hw3 (by rw [hxn, hpp]; exact fun he => hpx he)]
        exact hget2P
      have hkeys2 := IndexMap.withNode_keys hw2
      have hkeys3 := IndexMap.withNode_keys hw3
      rw [hkeys2] at hkeys3
      have hfresh2 := IndexMap.withNode_fresh hw2
      rw [IndexMap.erase_fresh] at hfresh2
      have hfresh3 := IndexMap.withNode_fresh hw3
      rw [hfresh2] at hfresh3
      have hget3 : ∀ k, k ≠ p → k ≠ x → k ≠ h → m3.get k = m.get k := by
        intro k hk1 hk2 hk3
        rw [IndexMap.get_withNode_ne hw3 (hxn ▸ hk2),
          IndexMap.get_withNode_ne hw2 (hpp ▸ hk1), IndexMap.get_erase_ne m hk3]
      refine ⟨node, ⟨d.first, d.last, d.len - 1⟩, m3, hget, ?_, ?_, rfl, ?_, ?_, ?_, ?_⟩
      · rw [remove_red_mid d m h hremove hp_ne hn_ne, hw2]
        simp [hw3]
      · constructor
        · exact hnd'
        · rw [w.len_eq]
          simp
        · show d.first = (l1 ++ x :: l2').headD 0
          rw [w.first_eq, headD_append, headD_append]
          exact headD_ne_nil hl1 _ _
        · show d.last = (l1 ++ x :: l2').getLastD 0
          rw [w.last_eq, getLastD_append_of_ne_nil _ (List.cons_ne_nil h (x :: l2')),
            getLastD_append_of_ne_nil _ (List.cons_ne_nil x l2'), List.getLastD_cons]
          exact getLastD_ne_nil (List.cons_ne_nil x l2') _ _
        · show segb m3 0 (l1 ++ x :: l2') 0 = true
          rw [← hdecomp, segb_append, segb_append]
          have hy1 : segb m3 0 l1' ([p].headD ((x :: l2').headD 0)) = true := by
            have hag : ∀ k ∈ l1', m3.get k = m.get k := by
              intro k hk
              have hkmem : k ∈ l1 := by rw [← hdecomp]; exact List.mem_append_left _ hk
              have hkp : k ≠ p := by
                intro he
                have := hndl1
                rw [← hdecomp, List.nodup_append] at this
                exact this.2.2 hk (by simp [he])
              have hkx : k ≠ x := fun he => hdisj hkmem (he ▸ (by simp))
              have hkh : k ≠ h := fun he => hh_notl1 (he ▸ hkmem)
              exact hget3 k hkp hkx hkh
            rw [segb_congr hag 0 _]
            exact hc11
          have hy2 : segb m3 (l1'.getLastD 0) [p] ((x :: l2').headD 0) = true := by
            rw [segb_cons]
            have hg := hget3P
            rw [hpp, hxn] at hg
            rw [hg]
            simp [hpreP, segb_nil]
          have hy3 : segb m3 ((l1' ++ [p]).getLastD 0) (x :: l2') 0 = true := by
            rw [List.getLastD_concat, segb_cons]
            have hg := hget3X
            rw [hpp, hxn] at hg
            rw [hg]
            have hT : segb m3 x l2' 0 = true := by
              have hag : ∀ k ∈ l2', m3.get k = m.get k := by
                intro k hk
                have hkmem : k ∈ x :: l2' := List.mem_cons_of_mem _ hk
                have hkx : k ≠ x := by
                  intro he
                  exact (List.nodup_cons.mp hndl2).1 (he ▸ hk)
                have hkp : k ≠ p := fun he => hdisj (he ▸ hp_meml1) (List.mem_cons_of_mem _ hkmem)
                have hkh : k ≠ h := fun he => hh_notl2 (he ▸ hkmem)
                exact hget3 k hkp hkx hkh
              rw [segb_congr hag x 0]
              exact hchl2'
            simp [hnextX, hT]
          rw [hy1, hy2, hy3]
          rfl
        · intro k
          rw [IndexMap.contains_congr hkeys3 k]
          exact hlive_core k
        · intro k hk
          rw [hkeys3] at hk
          have := erase_keys_pos h w.keys_pos k hk
          omega
        · rw [hfresh3]
          exact w.fresh_pos
      · exact fun hc => absurd hc.1 hp_ne
      · exact fun hc => absurd hc.2 hn_ne
      · exact fun hc => absurd hc.1 hp_ne
      · exact fun _ => ⟨rfl, rfl,
          ⟨nodeP, by rw [hpp]; exact hgetP, hget3P⟩,
          ⟨nodeX, by rw [hxn]; exact hgetX, hget3X⟩⟩

theorem push_to_back_wf {T : Type} {d : Deque} {m : IndexMap T} {l1 l2 : List Nat}
    {a : Nat} (e : T) (w : WF d m (l1 ++ a :: l2)) :
    ∃ d' m', Deque.push_to_back d e a m = some (m.fresh, d', m') ∧
      WF d' m' (l1 ++ a :: m.fresh :: l2) ∧
      d'.len = d.len + 1 ∧ d'.first = d.first ∧
      ∃ nodeA, m.get a = some nodeA ∧
        (nodeA.next = 0 → d'.last = m.fresh) ∧
        (nodeA.next ≠ 0 → d'.last = d.last) ∧
        m'.get m.fresh = some { elem := e, next := nodeA.next, pre := a } ∧
        m'.get a = some { nodeA with next := m.fresh } ∧
        (nodeA.next ≠ 0 → ∃ nodeS, m.get nodeA.next = some nodeS ∧
          m'.get nodeA.next = some { nodeS with pre := m.fresh }) := by
  have hnd := w.nodup
  rcases List.nodup_append.mp hnd with ⟨hndl1, hndc, hdisj⟩
  have ha_mem : a ∈ l1 ++ a :: l2 := by simp
  have ha_lt : a < m.fresh := (w.pos_mem a ha_mem).2
  have ha_notl1 : a ∉ l1 := fun hm => hdisj hm (by simp)
  have ha_notl2 : a ∉ l2 := (List.nodup_cons.mp hndc).1
  have hndl2 : l2.Nodup := (List.nodup_cons.mp hndc).2
  have hfresh_notmem : m.fresh ∉ l1 ++ a :: l2 := fun hmem =>
    absurd (w.pos_mem _ hmem).2 (by omega)
  have hperm : (l1 ++ a :: m.fresh :: l2).Perm (m.fresh :: (l1 ++ a :: l2)) := by
    have h1 : l1 ++ a :: m.fresh :: l2 = (l1 ++ [a]) ++ m.fresh :: l2 := by simp
    rw [h1]
    refine (List.perm_middle).trans ?_
    simp
  have hchain := w.chain
  rw [segb_append] at hchain
  have hch1 : segb m 0 l1 ((a :: l2).headD 0) = true :=
    (Bool.and_eq_true_iff.mp hchain).1
  have hch2 : segb m (l1.getLastD 0) (a :: l2) 0 = true :=
    (Bool.and_eq_true_iff.mp hchain).2
  obtain ⟨⟨nodeA, hgetA, hpreA, hnextA⟩, hchl2⟩ := (segb_cons_iff m _ a 0 l2).mp hch2
  have hget1A : (m.insert (Node.new e a 0)).2.get a = some nodeA := by
    rw [IndexMap.get_insert_ne (by omega), hgetA]
  obtain ⟨m2, hw2⟩ :=
    IndexMap.withNode_isSome (f := fun n => { n with next := m.fresh }) hget1A
  have hget2A : m2.get a = some { nodeA with next := m.fresh } :=
    IndexMap.get_withNode_self hw2 hget1A
  have hget2F : m2.get m.fresh = some (Node.new e a 0) := by
    rw [IndexMap.get_withNode_ne hw2 (by omega), IndexMap.get_insert_self w.keys_pos]
  have hkeys2 := IndexMap.withNode_keys hw2
  have hfresh2 := IndexMap.withNode_fresh hw2
  rw [IndexMap.insert_snd_fresh] at hfresh2
  have hget2 : ∀ k, k ≠ a → k ≠ m.fresh → m2.get k = m.get k := by
    intro k hk1 hk2
    rw [IndexMap.get_withNode_ne hw2 hk1, IndexMap.get_insert_ne hk2]
  have hlive2 : ∀ k, m2.contains k = true ↔ k ∈ l1 ++ a :: m.fresh :: l2 := by
    intro k
    rw [IndexMap.contains_congr hkeys2 k,
      IndexMap.contains_insert m _ w.keys_pos k, List.Perm.mem_iff hperm]
    by_cases hkf : k = m.fresh <;> simp [hkf, w.live_iff k]
  have hkeys_pos2 : ∀ k ∈ m2.slots.map Prod.fst, 1 ≤ k ∧ k < m2.fresh := by
    intro k hk
    rw [hkeys2] at hk
    have := insert_keys_pos (Node.new e a 0) w.keys_pos w.fresh_pos k hk
    rw [IndexMap.insert_snd_fresh] at this
    omega
  have hnd' : (l1 ++ a :: m.fresh :: l2).Nodup := by
    rw [List.Perm.nodup_iff hperm, List.nodup_cons]
    exact ⟨hfresh_notmem, hnd⟩
  have hl1agree2 : ∀ k ∈ l1, m2.get k = m.get k := by
    intro k hk
    exact hget2 k (fun he => ha_notl1 (he ▸ hk))
      (fun he => hfresh_notmem (List.mem_append_left _ (he ▸ hk)))
  by_cases hl2 : l2 = []
  · subst hl2
    have hnext0 : nodeA.next = 0 := by rw [hnextA]; rfl
    refine ⟨⟨d.first, m.fresh, d.len + 1⟩, m2, ?_, ?_, rfl, rfl,
      nodeA, hgetA, fun _ => rfl, fun hc => absurd hnext0 hc, hnext0 ▸ hget2F, hget2A,
      fun hc => absurd hnext0 hc⟩
    · simp only [Deque.push_to_back, IndexMap.insert_fst]
      rw [hget1A]
      simp [hnext0, hw2]
    · constructor
      · exact hnd'
      · rw [w.len_eq]
        simp
      · rw [w.first_eq, headD_append, headD_append]
        rfl
      · rw [getLastD_append_of_ne_nil _ (List.cons_ne_nil a (m.fresh :: []))]
        rfl
      · rw [segb_append]
        have hz1 : segb m2 0 l1 ((a :: m.fresh :: []).headD 0) = true := by
          rw [segb_congr hl1agree2 0 _]
          exact hch1
        have hz2 : segb m2 (l1.getLastD 0) (a :: m.fresh :: []) 0 = true := by
          rw [segb_cons, hget2A, segb_cons, hget2F]
          simp [hpreA, Node.new, segb_nil]
        rw [hz1, hz2]
        rfl
      · exact hlive2
      · exact hkeys_pos2
      · omega
  · obtain ⟨x, l2', rfl⟩ : ∃ x l2', l2 = x :: l2' := by
      cases l2 with
      | nil => exact absurd rfl hl2
      | cons x l2' => exact ⟨x, l2', rfl⟩
    have hnextAx : nodeA.next = x := by rw [hnextA]; rfl
    have hx_mem : x ∈ l1 ++ a :: x :: l2' := by simp
    have hx_pos : 1 ≤ x := (w.pos_mem x hx_mem).1
    have hx_lt : x < m.fresh := (w.pos_mem x hx_mem).2
    have hxa : x ≠ a := fun he => ha_notl2 (he ▸ (by simp))
    obtain ⟨⟨nodeX, hgetX, hpreX, hnextX⟩, hchl2'⟩ :=
      (segb_cons_iff m a x 0 l2').mp hchl2
    have hget2X : m2.get x = some nodeX := by
      rw [hget2 x hxa (by omega), hgetX]
    obtain ⟨m3, hw3⟩ :=
      IndexMap.withNode_isSome (f := fun n => { n with pre := m.fresh }) hget2X
    have hget3X : m3.get x = some { nodeX with pre := m.fresh } :=
      IndexMap.get_withNode_self hw3 hget2X
    have hget3F : m3.get m.fresh = some (Node.new e a 0) := by
      rw [IndexMap.get_withNode_ne hw3 (by omega), hget2F]
    obtain ⟨m4, hw4⟩ :=
      IndexMap.withNode_isSome (f := fun n => { n with next := x }) hget3F
    have hget4F : m4.get m.fresh = some { elem := e, next := x, pre := a } :=
      IndexMap.get_withNode_self hw4 hget3F
    have hget4X : m4.get x = some { nodeX with pre := m.fresh } := by
      rw [IndexMap.get_withNode_ne hw4 (by omega), hget3X]
    have hget4A : m4.get a = some { nodeA with next := m.fresh } := by
      rw [IndexMap.get_withNode_ne hw4 (by omega),
        IndexMap.get_withNode_ne hw3 (Ne.symm hxa), hget2A]
    have hget4 : ∀ k, k ≠ a → k ≠ m.fresh → k ≠ x → m4.get k = m.get k := by
      intro k hk1 hk2 hk3
      rw [IndexMap.get_withNode_ne hw4 hk2, IndexMap.get_withNode_ne hw3 hk3,
        hget2 k hk1 hk2]
    have hkeys4 : m4.slots.map Prod.fst = m2.slots.map Prod.fst := by
      rw [IndexMap.withNode_keys hw4, IndexMap.withNode_keys hw3]
    have hfresh4 : m4.fresh = m.fresh + 1 := by
      rw [IndexMap.withNode_fresh hw4, IndexMap.withNode_fresh hw3, hfresh2]
    refine ⟨⟨d.first, d.last, d.len + 1⟩, m4, ?_, ?_, rfl, rfl,
      nodeA, hgetA, ?_, fun _ => rfl, hnextAx ▸ hget4F, hget4A,
      fun _ => ⟨nodeX, by rw [hnextAx]; exact hgetX, by rw [hnextAx]; exact hget4X⟩⟩
    · simp only [Deque.push_to_back, IndexMap.insert_fst]
      rw [hget1A]
      have hx0 : ¬ x = 0 := by omega
      simp [hnextAx, hx0, hw2, hw3, hw4]
    · constructor
      · exact hnd'
      · rw [w.len_eq]
        simp
        omega
      · rw [w.first_eq, headD_append, headD_append]
        rfl
      · rw [w.last_eq,
          getLastD_append_of_ne_nil _ (List.cons_ne_nil a (x :: l2')),
          getLastD_append_of_ne_nil _ (List.cons_ne_nil a (m.fresh :: x :: l2'))]
        simp [List.getLastD_cons]
      · rw [segb_append]
        have hl1agree4 : ∀ k ∈ l1, m4.get k = m.get k := by
          intro k hk
          have hkmem : k ∈ l1 ++ a :: x :: l2' := List.mem_append_left _ hk
          exact hget4 k (fun he => ha_notl1 (he ▸ hk))
            (fun he => hfresh_notmem (he ▸ hkmem))
            (fun he => hdisj hk (he ▸ (by simp)))
        have hz1 : segb m4 0 l1 ((a :: m.fresh :: x :: l2').headD 0) = true := by
          rw [segb_congr hl1agree4 0 _]
          exact hch1
        have hz2 : segb m4 (l1.getLastD 0) (a :: m.fresh :: x :: l2') 0 = true := by
          rw [segb_cons, hget4A, segb_cons, hget4F, segb_cons, hget4X]
          have hT : segb m4 x l2' 0 = true := by
            have hag : ∀ k ∈ l2', m4.get k = m.get k := by
              intro k hk
              have hkmem : k ∈ l1 ++ a :: x :: l2' := by simp [hk]
              exact hget4 k (fun he => ha_notl2 (he ▸ List.mem_cons_of_mem _ hk))
                (fun he => hfresh_notmem (he ▸ hkmem))
                (fun he => (List.nodup_cons.mp hndl2).1 (he ▸ hk))
            rw [segb_congr hag x 0]
            exact hchl2'
          simp [hpreA, hnextX, hT, Node.new, segb_nil]
        rw [hz1, hz2]
        rfl
      · intro k
        rw [IndexMap.contains_congr hkeys4 k]
        exact hlive2 k
      · intro k hk
        rw [hkeys4] at hk
        have := hkeys_pos2 k hk
        omega
      · omega
    · intro hc
      rw [hnextAx] at hc
      omega

theorem push_to_front_wf {T : Type} {d : Deque} {m : IndexMap T} {l1 l2 : List Nat}
    {a : Nat} (e : T) (w : WF d m (l1 ++ a :: l2)) :
    ∃ d' m', Deque.push_to_front d e a m = some (m.fresh, d', m') ∧
      WF d' m' (l1 ++ m.fresh :: a :: l2) := by
  have hnd := w.nodup
  rcases List.nodup_append.mp hnd with ⟨hndl1, hndc, hdisj⟩
  have ha_mem : a ∈ l1 ++ a :: l2 := by simp
  have ha_lt : a < m.fresh := (w.pos_mem a ha_mem).2
  have ha_notl1 : a ∉ l1 := fun hm => hdisj hm (by simp)
  have ha_notl2 : a ∉ l2 := (List.nodup_cons.mp hndc).1
  have hndl2 : l2.Nodup := (List.nodup_cons.mp hndc).2
  have hfresh_notmem : m.fresh ∉ l1 ++ a :: l2 := fun hmem =>
    absurd (w.pos_mem _ hmem).2 (by omega)
  have hperm : (l1 ++ m.fresh :: a :: l2).Perm (m.fresh :: (l1 ++ a :: l2)) :=
    List.perm_middle
  have hchain := w.chain
  rw [segb_append] at hchain
  have hch1 : segb m 0 l1 ((a :: l2).headD 0) = true :=
    (Bool.and_eq_true_iff.mp hchain).1
  have hch2 : segb m (l1.getLastD 0) (a :: l2) 0 = true :=
    (Bool.and_eq_true_iff.mp hchain).2
  obtain ⟨⟨nodeA, hgetA, hpreA, hnextA⟩, hchl2⟩ := (segb_cons_iff m _ a 0 l2).mp hch2
  have hget1A : (m.insert (Node.new e 0 a)).2.get a = some nodeA := by
    rw [IndexMap.get_insert_ne (by omega), hgetA]
  obtain ⟨m2, hw2⟩ :=
    IndexMap.withNode_isSome (f := fun n => { n with pre := m.fresh }) hget1A
  have hget2A : m2.get a = some { nodeA with pre := m.fresh } :=
    IndexMap.get_withNode_self hw2 hget1A
  have hget2F : m2.get m.fresh = some (Node.new e 0 a) := by
    rw [IndexMap.get_withNode_ne hw2 (by omega), IndexMap.get_insert_self w.keys_pos]
  have hkeys2 := IndexMap.withNode_keys hw2
  have hfresh2 := IndexMap.withNode_fresh hw2
  rw [IndexMap.insert_snd_fresh] at hfresh2
  have hget2 : ∀ k, k ≠ a → k ≠ m.fresh → m2.get k = m.get k := by
    intro k hk1 hk2
    rw [IndexMap.get_withNode_ne hw2 hk1, IndexMap.get_insert_ne hk2]
  have hlive2 : ∀ k, m2.contains k = true ↔ k ∈ l1 ++ m.fresh :: a :: l2 := by
    intro k
    rw [IndexMap.contains_congr hkeys2 k,
      IndexMap.contains_insert m _ w.keys_pos k, List.Perm.mem_iff hperm]
    by_cases hkf : k = m.fresh <;> simp [hkf, w.live_iff k]
  have hkeys_pos2 : ∀ k ∈ m2.slots.map Prod.fst, 1 ≤ k ∧ k < m2.fresh := by
    intro k hk
    rw [hkeys2] at hk
    have := insert_keys_pos (Node.new e 0 a) w.keys_pos w.fresh_pos k hk
    rw [IndexMap.insert_snd_fresh] at this
    omega
  have hnd' : (l1 ++ m.fresh :: a :: l2).Nodup := by
    rw [List.Perm.nodup_iff hperm, List.nodup_cons]
    exact ⟨hfresh_notmem, hnd⟩
  have hl1agree2 : ∀ k ∈ l1, m2.get k = m.get k := by
    intro k hk
    exact hget2 k (fun he => ha_notl1 (he ▸ hk))
      (fun he => hfresh_notmem (List.mem_append_left _ (he ▸ hk)))
  by_cases hl1 : l1 = []
  · subst hl1
    have hpre0 : nodeA.pre = 0 := by rw [hpreA]; rfl
    refine ⟨⟨m.fresh, d.last, d.len + 1⟩, m2, ?_, ?_⟩
    · simp only [Deque.push_to_front, IndexMap.insert_fst]
      rw [hget1A]
      simp [hpre0, hw2]
    · constructor
      · exact hnd'
      · rw [w.len_eq]
        simp
      · rfl
      · rw [w.last_eq]
        rfl
      · rw [List.nil_append, segb_cons, hget2F, segb_cons, hget2A]
        have hT : segb m2 a l2 0 = true := by
          have hag : ∀ k ∈ l2, m2.get k = m.get k := by
            intro k hk
            exact hget2 k (fun he => ha_notl2 (he ▸ hk))
              (fun he => hfresh_notmem (by simp [he ▸ hk]))
          rw [segb_congr hag a 0]
          exact hchl2
        simp [hnextA, hT, Node.new, segb_nil]
      · exact hlive2
      · exact hkeys_pos2
      · omega
  · set p := l1.getLast hl1 with hpdef
    have hdecomp : l1.dropLast ++ [p] = l1 := List.dropLast_append_getLast hl1
    set l1' := l1.dropLast with hl1def
    have hpp : nodeA.pre = p := by rw [hpreA, ← hdecomp, List.getLastD_concat]
    have hp_meml1 : p ∈ l1 := by rw [← hdecomp]; simp
    have hp_pos : 1 ≤ p := (w.pos_mem p (List.mem_append_left _ hp_meml1)).1
    have hp_lt : p < m.fresh := (w.pos_mem p (List.mem_append_left _ hp_meml1)).2
    have hpre_ne : ¬ nodeA.pre = 0 := by rw [hpp]; omega
    have hpa : p ≠ a := fun he => ha_notl1 (he ▸ hp_meml1)
    rw [← hdecomp, segb_append] at hch1
    have hc11 : segb m 0 l1' ([p].headD ((a :: l2).headD 0)) = true :=
      (Bool.and_eq_true_iff.mp hch1).1
    have hc12 : segb m (l1'.getLastD 0) [p] ((a :: l2).headD 0) = true :=
      (Bool.and_eq_true_iff.mp hch1).2
    obtain ⟨nodeP, hgetP, hpreP, hnextP⟩ :=
      ((segb_cons_iff m _ p _ []).mp hc12).1
    have hget2P : m2.get p = some nodeP := by
      rw [hget2 p hpa (by omega), hgetP]
    obtain ⟨m3, hw3⟩ :=
      IndexMap.withNode_isSome (f := fun n => { n with next := m.fresh }) hget2P
    have hget3P : m3.get p = some { nodeP with next := m.fresh } :=
      IndexMap.get_withNode_self hw3 hget2P
    have hget3F : m3.get m.fresh = some (Node.new e 0 a) := by
      rw [IndexMap.get_withNode_ne hw3 (by omega), hget2F]
    obtain ⟨m4, hw4⟩ :=
      IndexMap.withNode_isSome (f := fun n => { n with pre := p }) hget3F
    have hget4F : m4.get m.fresh = some { elem := e, next := a, pre := p } :=
      IndexMap.get_withNode_self hw4 hget3F
    have hget4P : m4.get p = some { nodeP with next := m.fresh } := by
      rw [IndexMap.get_withNode_ne hw4 (by omega), hget3P]
    have hget4A : m4.get a = some { nodeA with pre := m.fresh } := by
      rw [IndexMap.get_withNode_ne hw4 (by omega),
        IndexMap.get_withNode_ne hw3 (Ne.symm hpa), hget2A]
    have hget4 : ∀ k, k ≠ a → k ≠ m.fresh → k ≠ p → m4.get k = m.get k := by
      intro k hk1 hk2 hk3
      rw [IndexMap.get_withNode_ne hw4 hk2, IndexMap.get_withNode_ne hw3 hk3,
        hget2 k hk1 hk2]
    have hkeys4 : m4.slots.map Prod.fst = m2.slots.map Prod.fst := by
      rw [IndexMap.withNode_keys hw4, IndexMap.withNode_keys hw3]
    have hfresh4 : m4.fresh = m.fresh + 1 := by
      rw [IndexMap.withNode_fresh hw4, IndexMap.withNode_fresh hw3, hfresh2]
    refine ⟨⟨d.first, d.last, d.len + 1⟩, m4, ?_, ?_⟩
    · simp only [Deque.push_to_front, IndexMap.insert_fst]
      rw [hget1A]
      have hp0 : ¬ p = 0 := by omega
      simp [hpp, hp0, hw2, hw3, hw4]
    · constructor
      · exact hnd'
      · rw [w.len_eq]
        simp
        omega
      · rw [w.first_eq, headD_append, headD_append]
        exact headD_ne_nil hl1 _ _
      · rw [w.last_eq,
          getLastD_append_of_ne_nil _ (List.cons_ne_nil a l2),
          getLastD_append_of_ne_nil _ (List.cons_ne_nil m.fresh (a :: l2))]
        simp [List.getLastD_cons]
      · rw [← hdecomp, List.append_assoc, segb_append]
        have hz1 : segb m4 0 l1'
            (([p] ++ m.fresh :: a :: l2).headD 0) = true := by
          have hag : ∀ k ∈ l1', m4.get k = m.get k := by
            intro k hk
            have hkmem : k ∈ l1 := by rw [← hdecomp]; exact List.mem_append_left _ hk
            have hkp : k ≠ p := by
              intro he
              have := hndl1
              rw [← hdecomp, List.nodup_append] at this
              exact this.2.2 hk (by simp [he])
            exact hget4 k (fun he => ha_notl1 (he ▸ hkmem))
              (fun he => hfresh_notmem (List.mem_append_left _ (he ▸ hkmem))) hkp
          rw [segb_congr hag 0 _]
          exact hc11
        have hz2 : segb m4 (l1'.getLastD 0) ([p] ++ m.fresh :: a :: l2) 0 = true := by
          rw [List.cons_append, List.nil_append, segb_cons, hget4P, segb_cons, hget4F,
            segb_cons, hget4A]
          have hT : segb m4 a l2 0 = true := by
            have hag : ∀ k ∈ l2, m4.get k = m.get k := by
              intro k hk
              exact hget4 k (fun he => ha_notl2 (he ▸ hk))
                (fun he => hfresh_notmem (by simp [he ▸ hk]))
                (fun he => hdisj (he ▸ hp_meml1) (List.mem_cons_of_mem _ hk))
            rw [segb_congr hag a 0]
            exact hchl2
          simp [hpreP, hnextA, hT, segb_nil]
        rw [hz1, hz2]
        rfl
      · intro k
        rw [IndexMap.contains_congr hkeys4 k]
        exact hlive2 k
      · intro k hk
        rw [hkeys4] at hk
        have := hkeys_pos2 k hk
        omega
      · omega

theorem pop_front_wf {T : Type} {d : Deque} {m : IndexMap T} {hs : List Nat}
    (w : WF d m hs) :
    (hs = [] → Deque.pop_front d m = some (none, d, m)) ∧
    ∀ h t, hs = h :: t → ∃ node d' m', m.get h = some node ∧
      Deque.pop_front d m = some (some node.elem, d', m') ∧
      Deque.pop_front_unchecked d m = some (node.elem, d', m') ∧
      WF d' m' t ∧ eraseList m' t = eraseList (m.erase h) t := by
  constructor
  · intro hnil
    have h0 : d.first = 0 := w.first_zero_iff.mpr hnil
    simp [Deque.pop_front, h0]
  · intro h t hcons
    subst hcons
    obtain ⟨node, d', m', hget, hstep, hwf, herase⟩ := pop_front_unchecked_wf w
    have hpos := (w.pos_mem h (by simp)).1
    have h0 : ¬ d.first = 0 := by
      rw [w.first_eq]
      simp only [List.headD_cons]
      omega
    refine ⟨node, d', m', hget, ?_, hstep, hwf, herase⟩
    simp [Deque.pop_front, h0, hstep]

theorem pop_back_wf {T : Type} {d : Deque} {m : IndexMap T} {hs : List Nat}
    (w : WF d m hs) :
    (hs = [] → Deque.pop_back d m = some (none, d, m)) ∧
    ∀ hs' lastH, hs = hs' ++ [lastH] → ∃ node d' m', m.get lastH = some node ∧
      Deque.pop_back d m = some (some node.elem, d', m') ∧
      Deque.pop_back_unchecked d m = some (node.elem, d', m') ∧
      WF d' m' hs' := by
  constructor
  · intro hnil
    have h0 : d.last = 0 := w.last_zero_iff.mpr hnil
    simp [Deque.pop_back, h0]
  · intro hs' lastH hdec
    subst hdec
    obtain ⟨node, d', m', hget, hstep, hwf⟩ := pop_back_unchecked_wf w
    have hpos := (w.pos_mem lastH (by simp)).1
    have h0 : ¬ d.last = 0 := by
      rw [w.last_eq, List.getLastD_concat]
      omega
    refine ⟨node, d', m', hget, ?_, hstep, hwf⟩
    simp [Deque.pop_back, h0, hstep]

theorem remove_some_contains {T : Type} {d : Deque} {m : IndexMap T} {i : Nat}
    {r : T × Deque × IndexMap T} (h : Deque.remove d i m = some r) :
    m.contains i = true := by
  unfold Deque.remove at h
  cases hg : m.remove i with
  | none =>
    rw [hg] at h
    exact absurd h (by simp)
  | some p =>
    obtain ⟨n, m2⟩ := p
    have := (IndexMap.remove_some hg).1
    exact IndexMap.contains_true_iff.mpr ⟨n, this⟩

theorem try_remove_wf {T : Type} {d : Deque} {m : IndexMap T} {i : Nat}
    {hs : List Nat} (w : WF d m hs) :
    (i ∉ hs → Deque.try_remove d i m = some (none, d, m)) ∧
    ∀ l1 l2, hs = l1 ++ i :: l2 → ∃ node d' m', m.get i = some node ∧
      Deque.remove d i m = some (node.elem, d', m') ∧
      Deque.try_remove d i m = some (some node.elem, d', m') ∧
      WF d' m' (l1 ++ l2) := by
  constructor
  · intro hni
    have hc : m.contains i = false := by
      cases hcc : m.contains i
      · rfl
      · exact absurd ((w.live_iff i).mp hcc) hni
    simp [Deque.try_remove, hc]
  · intro l1 l2 hdec
    subst hdec
    obtain ⟨node, d', m', hget, hstep, hwf, -, -, -, -, -⟩ := remove_wf w
    have hc : m.contains i = true := (w.live_iff i).mpr (by simp)
    exact ⟨node, d', m', hget, hstep, by simp [Deque.try_remove, hc, hstep], hwf⟩

theorem popN_succ {T : Type} (n : Nat) (d : Deque) (m : IndexMap T) {x : Option T}
    {d1 : Deque} {m1 : IndexMap T} (h : d.pop_front m = some (x, d1, m1)) :
    popN (n + 1) d m = popN n d1 m1 := by
  show (match d.pop_front m with
    | some (_, d1, m1) => popN n d1 m1
    | none => none) = popN n d1 m1
  rw [h]

theorem clearLoop_succ_done {T : Type} (f : Nat) (m : IndexMap T) :
    Deque.clearLoop (f + 1) 0 m = some m := rfl

theorem clearLoop_succ_step {T : Type} (f first : Nat) (m : IndexMap T)
    (h0 : first ≠ 0) {node : Node T}
    (hrem : m.remove first = some (node, m.erase first)) :
    Deque.clearLoop (f + 1) first m = Deque.clearLoop f node.next (m.erase first) := by
  show (if first == 0 then some m
    else match m.remove first with
      | none => none
      | some (node, m1) => Deque.clearLoop f node.next m1) =
    Deque.clearLoop f node.next (m.erase first)
  rw [if_neg (by simpa using h0), hrem]

theorem iterFrom_zero {T : Type} (fuel : Nat) (m : IndexMap T) :
    Deque.iterFrom fuel 0 m = some [] := by
  cases fuel <;> rfl

theorem iterFrom_step {T : Type} (f s : Nat) (m : IndexMap T) (hs0 : s ≠ 0)
    {node : Node T} (hget : m.get s = some node) :
    Deque.iterFrom (f + 1) s m =
      match Deque.iterFrom f node.next m with
      | some l => some (node.elem :: l)
      | none => none := by
  obtain ⟨ss, rfl⟩ := Nat.exists_eq_succ_of_ne_zero hs0
  show (match m.get (ss + 1) with
    | none => none
    | some node =>
      match Deque.iterFrom f node.next m with
      | some l => some (node.elem :: l)
      | none => none) = _
  rw [hget]

theorem elemsOf_cons {T : Type} (m : IndexMap T) (h : Nat) (t : List Nat)
    {node : Node T} (hget : m.get h = some node) :
    elemsOf m (h :: t) = node.elem :: elemsOf m t := by
  unfold elemsOf
  rw [List.filterMap_cons, hget]
  rfl

theorem clearLoop_eq {T : Type} :
    ∀ (hs : List Nat) (fuel : Nat) (m : IndexMap T) (pre : Nat),
    hs.length < fuel → hs.Nodup → (∀ h ∈ hs, 1 ≤ h) →
    segb m pre hs 0 = true →
    Deque.clearLoop fuel (hs.headD 0) m = some (eraseList m hs) := by
  intro hs
  induction hs with
  | nil =>
    intro fuel m pre hfuel _ _ _
    cases fuel with
    | zero => omega
    | succ f => exact clearLoop_succ_done f m
  | cons h t ih =>
    intro fuel m pre hfuel hnd hpos hseg
    obtain ⟨⟨node, hget, hpre, hnext⟩, hsegT⟩ := (segb_cons_iff m pre h 0 t).mp hseg
    have hh_pos : 1 ≤ h := hpos h (by simp)
    cases fuel with
    | zero => omega
    | succ f =>
      have hsegT' : segb (m.erase h) h t 0 = true := by
        have hag : ∀ k ∈ t, (m.erase h).get k = m.get k := by
          intro k hk
          have hkh : k ≠ h := fun he => (List.nodup_cons.mp hnd).1 (he ▸ hk)
          exact IndexMap.get_erase_ne m hkh
        rw [segb_congr hag h 0]
        exact hsegT
      have hrec := ih f (m.erase h) h (by simp at hfuel ⊢; omega)
        (List.nodup_cons.mp hnd).2 (fun k hk => hpos k (by simp [hk])) hsegT'
      rw [List.headD_cons,
        clearLoop_succ_step f h m (by omega) (IndexMap.remove_of_get hget), hnext]
      exact hrec

theorem clear_wf {T : Type} {d : Deque} {m : IndexMap T} {hs : List Nat}
    (w : WF d m hs) :
    Deque.clear d m = some (⟨0, 0, 0⟩, eraseList m hs) ∧
    WF (⟨0, 0, 0⟩ : Deque) (eraseList m hs) [] := by
  constructor
  · unfold Deque.clear
    rw [w.first_eq, clearLoop_eq hs (m.slots.length + 1) m 0
      (by have := w.length_le_slots; omega) w.nodup
      (fun h hm => (w.pos_mem h hm).1) w.chain]
  · constructor
    · exact List.nodup_nil
    · rfl
    · rfl
    · rfl
    · rfl
    · intro k
      rw [contains_eraseList]
      constructor
      · rintro ⟨hc, hni⟩
        exact absurd ((w.live_iff k).mp hc) hni
      · intro hk
        simp at hk
    · exact eraseList_keys_pos hs m w.keys_pos
    · rw [eraseList_fresh]
      exact w.fresh_pos

theorem popN_eq {T : Type} :
    ∀ (hs : List Nat) (d : Deque) (m : IndexMap T), WF d m hs →
    popN hs.length d m = some (⟨0, 0, 0⟩, eraseList m hs) := by
  intro hs
  induction hs with
  | nil =>
    intro d m w
    have hd : d = ⟨0, 0, 0⟩ := by
      have h1 := w.first_eq
      have h2 := w.last_eq
      have h3 := w.len_eq
      cases d
      simp_all
    rw [hd]
    rfl
  | cons h t ih =>
    intro d m w
    obtain ⟨node, d', m', -, hstep, -, hwf, herase⟩ := (pop_front_wf w).2 h t rfl
    show popN (t.length + 1) d m = _
    rw [popN_succ t.length d m hstep, ih d' m' hwf, herase]
    rfl

theorem iterFrom_eq {T : Type} :
    ∀ (hs : List Nat) (m : IndexMap T) (pre fuel : Nat), hs.length ≤ fuel →
    segb m pre hs 0 = true → (∀ h ∈ hs, 1 ≤ h) →
    Deque.iterFrom fuel (hs.headD 0) m = some (elemsOf m hs) := by
  intro hs
  induction hs with
  | nil =>
    intro m pre fuel _ _ _
    exact iterFrom_zero fuel m
  | cons h t ih =>
    intro m pre fuel hfuel hseg hpos
    obtain ⟨⟨node, hget, hpre, hnext⟩, hsegT⟩ := (segb_cons_iff m pre h 0 t).mp hseg
    have hh_pos : 1 ≤ h := hpos h (by simp)
    cases fuel with
    | zero => simp at hfuel
    | succ f =>
      have hrec := ih m h f (by simp at hfuel ⊢; omega) hsegT
        (fun k hk => hpos k (by simp [hk]))
      rw [List.headD_cons, iterFrom_step f h m (by omega) hget, hnext, hrec,
        elemsOf_cons m h t hget]

theorem iterList_wf {T : Type} {d : Deque} {m : IndexMap T} {hs : List Nat}
    (w : WF d m hs) : Deque.iterList d m = some (elemsOf m hs) := by
  unfold Deque.iterList
  rw [w.first_eq]
  exact iterFrom_eq hs m 0 m.slots.length w.length_le_slots w.chain
    (fun h hm => (w.pos_mem h hm).1)

theorem wf_new {T : Type} : WF Deque.new (IndexMap.empty : IndexMap T) [] := by
  constructor
  · exact List.nodup_nil
  · rfl
  · rfl
  · rfl
  · rfl
  · intro k
    constructor
    · intro hc
      simp [IndexMap.contains, IndexMap.get, IndexMap.empty] at hc
    · intro hk
      simp at hk
  · intro k hk
    simp [IndexMap.empty] at hk
  · exact Nat.le_refl 1

theorem reachable_wf {T : Type} {d : Deque} {m : IndexMap T}
    (hr : Reachable d m) : ∃ hs, WF d m hs := by
  induction hr with
  | init => exact ⟨[], wf_new⟩
  | push_back hr hstep ih =>
    obtain ⟨hs, w⟩ := ih
    obtain ⟨d0, m0, hstep0, hwf0⟩ := push_back_wf w _
    have heq := hstep0.symm.trans hstep
    injection heq with heq
    injection heq with h1 heq
    injection heq with h2 h3
    exact ⟨_, h2 ▸ h3 ▸ hwf0⟩
  | push_front hr hstep ih =>
    obtain ⟨hs, w⟩ := ih
    obtain ⟨d0, m0, hstep0, hwf0⟩ := push_front_wf w _
    have heq := hstep0.symm.trans hstep
    injection heq with heq
    injection heq with h1 heq
    injection heq with h2 h3
    exact ⟨_, h2 ▸ h3 ▸ hwf0⟩
  | push_to_back hr hcont hstep ih =>
    obtain ⟨hs, w⟩ := ih
    obtain ⟨l1, l2, hdec⟩ := List.append_of_mem ((w.live_iff _).mp hcont)
    subst hdec
    obtain ⟨d0, m0, hstep0, hwf0, -⟩ := push_to_back_wf _ w
    have heq := hstep0.symm.trans hstep
    injection heq with heq
    injection heq with h1 heq
    injection heq with h2 h3
    exact ⟨_, h2 ▸ h3 ▸ hwf0⟩
  | push_to_front hr hcont hstep ih =>
    obtain ⟨hs, w⟩ := ih
    obtain ⟨l1, l2, hdec⟩ := List.append_of_mem ((w.live_iff _).mp hcont)
    subst hdec
    obtain ⟨d0, m0, hstep0, hwf0⟩ := push_to_front_wf _ w
    have heq := hstep0.symm.trans hstep
    injection heq with heq
    injection heq with h1 heq
    injection heq with h2 h3
    exact ⟨_, h2 ▸ h3 ▸ hwf0⟩
  | pop_front hr hstep ih =>
    obtain ⟨hs, w⟩ := ih
    cases hs with
    | nil =>
      have h0 := (pop_front_wf w).1 rfl
      have heq := h0.symm.trans hstep
      injection heq with heq
      injection heq with h1 heq
      injection heq with h2 h3
      exact ⟨[], h2 ▸ h3 ▸ w⟩
    | cons h t =>
      obtain ⟨node, d0, m0, -, hstep0, -, hwf0, -⟩ := (pop_front_wf w).2 h t rfl
      have heq := hstep0.symm.trans hstep
      injection heq with heq
      injection heq with h1 heq
      injection heq with h2 h3
      exact ⟨_, h2 ▸ h3 ▸ hwf0⟩
  | pop_back hr hstep ih =>
    obtain ⟨hs, w⟩ := ih
    by_cases hnil : hs = []
    · subst hnil
      have h0 := (pop_back_wf w).1 rfl
      have heq := h0.symm.trans hstep
      injection heq with heq
      injection heq with h1 heq
      injection heq with h2 h3
      exact ⟨[], h2 ▸ h3 ▸ w⟩
    · obtain ⟨node, d0, m0, -, hstep0, -, hwf0⟩ :=
        (pop_back_wf w).2 hs.dropLast (hs.getLast hnil)
          (List.dropLast_append_getLast hnil).symm
      have heq := hstep0.symm.trans hstep
      injection heq with heq
      injection heq with h1 heq
      injection heq with h2 h3
      exact ⟨_, h2 ▸ h3 ▸ hwf0⟩
  | remove hr hstep ih =>
    obtain ⟨hs, w⟩ := ih
    obtain ⟨l1, l2, hdec⟩ :=
      List.append_of_mem ((w.live_iff _).mp (remove_some_contains hstep))
    subst hdec
    obtain ⟨node, d0, m0, -, hstep0, hwf0, -, -, -, -, -⟩ := remove_wf w
    have heq := hstep0.symm.trans hstep
    injection heq with heq
    injection heq with h1 heq
    injection heq with h2 h3
    exact ⟨_, h2 ▸ h3 ▸ hwf0⟩
  | try_remove hr hstep ih =>
    rename_i dd mm ii xx dd' mm'
    obtain ⟨hs, w⟩ := ih
    by_cases hmem : ii ∈ hs
    · obtain ⟨l1, l2, hdec⟩ := List.append_of_mem hmem
      subst hdec
      obtain ⟨node, d0, m0, -, -, hstep0, hwf0⟩ := (try_remove_wf w).2 l1 l2 rfl
      have heq := hstep0.symm.trans hstep
      injection heq with heq
      injection heq with h1 heq
      injection heq with h2 h3
      exact ⟨_, h2 ▸ h3 ▸ hwf0⟩
    · have h0 := (try_remove_wf w).1 hmem
      have heq := h0.symm.trans hstep
      injection heq with heq
      injection heq with h1 heq
      injection heq with h2 h3
      exact ⟨hs, h2 ▸ h3 ▸ w⟩
  | clear hr hstep ih =>
    obtain ⟨hs, w⟩ := ih
    have h0 := (clear_wf w).1
    have heq := h0.symm.trans hstep
    injection heq with heq
    injection heq with h2 h3
    exact ⟨[], h2 ▸ h3 ▸ (clear_wf w).2⟩

/-- A concrete well-formed one-element state: the deque `⟨1, 1, 1⟩` over the
map holding the single node `(elem 5, next 0, pre 0)` at handle `1`, used to
instantiate the claim theorems at a concrete input. -/
theorem wf_one : WF ⟨1, 1, 1⟩ (⟨[(1, ⟨5, 0, 0⟩)], 2⟩ : IndexMap Nat) [1] := by
  constructor
  · decide
  · rfl
  · rfl
  · rfl
  · decide
  · intro k
    by_cases hk : k = 1
    · subst hk
      simp [IndexMap.contains, IndexMap.get, List.find?]
    · have hbe : ((1 : Nat) == k) = false := by
        simp
        exact fun he => hk he.symm
      constructor
      · intro hc
        simp [IndexMap.contains, IndexMap.get, List.find?, hbe] at hc
      · intro hm
        simp at hm
        exact absurd hm hk
  · decide
  · decide

/-- C1: every state reachable from a new deque by the public operations,
each applied within its precondition, satisfies the three-way equivalence:
the head handle is `0` iff the tail handle is `0` iff the length is `0`. -/
theorem c1_reachable_empty_equivalence {T : Type} {d : Deque} {m : IndexMap T}
    (hr : Reachable d m) :
    (d.first = 0 ↔ d.last = 0) ∧ (d.last = 0 ↔ d.len = 0) := by
  obtain ⟨hs, w⟩ := reachable_wf hr
  constructor
  · rw [w.first_zero_iff, w.last_zero_iff]
  · rw [w.last_zero_iff, w.len_zero_iff]

theorem c1_reachable_empty_equivalence_witness :
    (((⟨1, 1, 1⟩ : Deque).first = 0 ↔ (⟨1, 1, 1⟩ : Deque).last = 0) ∧
      ((⟨1, 1, 1⟩ : Deque).last = 0 ↔ (⟨1, 1, 1⟩ : Deque).len = 0)) :=
  c1_reachable_empty_equivalence
    (Reachable.push_back (T := Nat) (e := 5) Reachable.init rfl)

/-- C2: for a handle that is live and a member of the deque, `remove`
returns the stored element, decrements the length by one, and relinks by
exactly the four disjoint cases of the removed node's
`(predecessor, successor)` pair. -/
theorem c2_remove_four_cases {T : Type} {d : Deque} {m : IndexMap T}
    {l1 l2 : List Nat} {h : Nat} (w : WF d m (l1 ++ h :: l2)) :
    ∃ node d' m', m.get h = some node ∧
      Deque.remove d h m = some (node.elem, d', m') ∧
      d'.len + 1 = d.len ∧
      (node.pre = 0 ∧ node.next = 0 →
        d'.first = 0 ∧ d'.last = 0) ∧
      (node.pre ≠ 0 ∧ node.next = 0 →
        d'.last = node.pre ∧ d'.first = d.first ∧
        ∃ nodeP, m.get node.pre = some nodeP ∧
          m'.get node.pre = some { nodeP with next := 0 }) ∧
      (node.pre = 0 ∧ node.next ≠ 0 →
        d'.first = node.next ∧ d'.last = d.last ∧
        ∃ nodeS, m.get node.next = some nodeS ∧
          m'.get node.next = some { nodeS with pre := 0 }) ∧
      (node.pre ≠ 0 ∧ node.next ≠ 0 →
        d'.first = d.first ∧ d'.last = d.last ∧
        (∃ nodeP, m.get node.pre = some nodeP ∧
          m'.get node.pre = some { nodeP with next := node.next }) ∧
        (∃ nodeS, m.get node.next = some nodeS ∧
          m'.get node.next = some { nodeS with pre := node.pre })) := by
  obtain ⟨node, d', m', hget, hstep, hwf, hlen, hc1, hc2, hc3, hc4⟩ := remove_wf w
  have hL : d.len = l1.length + (l2.length + 1) := by
    rw [w.len_eq]
    simp
  exact ⟨node, d', m', hget, hstep, by omega,
    fun hc => ⟨(hc1 hc).1, (hc1 hc).2.1⟩,
    fun hc => ⟨(hc2 hc).2.1, (hc2 hc).1, (hc2 hc).2.2⟩,
    fun hc => ⟨(hc3 hc).2.1, (hc3 hc).1, (hc3 hc).2.2⟩, hc4⟩

theorem c2_remove_four_cases_witness :
    ∃ node d' m', (⟨[(1, ⟨5, 0, 0⟩)], 2⟩ : IndexMap Nat).get 1 = some node ∧
      Deque.remove ⟨1, 1, 1⟩ 1 ⟨[(1, ⟨5, 0, 0⟩)], 2⟩ = some (node.elem, d', m') ∧
      d'.len + 1 = (⟨1, 1, 1⟩ : Deque).len ∧
      (node.pre = 0 ∧ node.next = 0 →
        d'.first = 0 ∧ d'.last = 0) ∧
      (node.pre ≠ 0 ∧ node.next = 0 →
        d'.last = node.pre ∧ d'.first = (⟨1, 1, 1⟩ : Deque).first ∧
        ∃ nodeP, (⟨[(1, ⟨5, 0, 0⟩)], 2⟩ : IndexMap Nat).get node.pre = some nodeP ∧
          m'.get node.pre = some { nodeP with next := 0 }) ∧
      (node.pre = 0 ∧ node.next ≠ 0 →
        d'.first = node.next ∧ d'.last = (⟨1, 1, 1⟩ : Deque).last ∧
        ∃ nodeS, (⟨[(1, ⟨5, 0, 0⟩)], 2⟩ : IndexMap Nat).get node.next = some nodeS ∧
          m'.get node.next = some { nodeS with pre := 0 }) ∧
      (node.pre ≠ 0 ∧ node.next ≠ 0 →
        d'.first = (⟨1, 1, 1⟩ : Deque).first ∧ d'.last = (⟨1, 1, 1⟩ : Deque).last ∧
        (∃ nodeP, (⟨[(1, ⟨5, 0, 0⟩)], 2⟩ : IndexMap Nat).get node.pre = some nodeP ∧
          m'.get node.pre = some { nodeP with next := node.next }) ∧
        (∃ nodeS, (⟨[(1, ⟨5, 0, 0⟩)], 2⟩ : IndexMap Nat).get node.next = some nodeS ∧
          m'.get node.next = some { nodeS with pre := node.pre })) :=
  @c2_remove_four_cases Nat ⟨1, 1, 1⟩ ⟨[(1, ⟨5, 0, 0⟩)], 2⟩ [] [] 1 wf_one

/-- C3: the checked `pop_front` returns absent exactly on the empty deque,
leaving the state unchanged, and otherwise returns the head element with
the effect of `pop_front_unchecked` (new head's predecessor relinked to `0`,
or tail cleared when the deque becomes empty); `pop_back` is symmetric on
the tail. -/
theorem c3_checked_pops {T : Type} {d : Deque} {m : IndexMap T} {hs : List Nat}
    (w : WF d m hs) :
    (d.len = 0 →
      Deque.pop_front d m = some (none, d, m) ∧
      Deque.pop_back d m = some (none, d, m)) ∧
    (d.len ≠ 0 →
      (∃ node d' m', m.get d.first = some node ∧
        Deque.pop_front_unchecked d m = some (node.elem, d', m') ∧
        Deque.pop_front d m = some (some node.elem, d', m') ∧
        (d'.first = 0 → d'.last = 0) ∧
        (d'.first ≠ 0 → ∃ n2, m'.get d'.first = some n2 ∧ n2.pre = 0)) ∧
      (∃ node d' m', m.get d.last = some node ∧
        Deque.pop_back_unchecked d m = some (node.elem, d', m') ∧
        Deque.pop_back d m = some (some node.elem, d', m') ∧
        (d'.last = 0 → d'.first = 0) ∧
        (d'.last ≠ 0 → ∃ n2, m'.get d'.last = some n2 ∧ n2.next = 0))) := by
  constructor
  · intro h0
    have hnil : hs = [] := w.len_zero_iff.mp h0
    exact ⟨(pop_front_wf w).1 hnil, (pop_back_wf w).1 hnil⟩
  · intro h0
    have hne : hs ≠ [] := fun hnil => h0 (w.len_zero_iff.mpr hnil)
    constructor
    · obtain ⟨h, t, hdec⟩ : ∃ h t, hs = h :: t := by
        cases hs with
        | nil => exact absurd rfl hne
        | cons h t => exact ⟨h, t, rfl⟩
      obtain ⟨node, d', m', hget, hpop, hunch, hwf', -⟩ := (pop_front_wf w).2 h t hdec
      have hfirst : d.first = h := by rw [w.first_eq, hdec]; rfl
      refine ⟨node, d', m', by rw [hfirst]; exact hget, hunch, hpop, ?_, ?_⟩
      · intro hz
        exact hwf'.last_zero_iff.mpr (hwf'.first_zero_iff.mp hz)
      · intro hz
        have hne' : t ≠ [] := fun h2 => hz (hwf'.first_zero_iff.mpr h2)
        obtain ⟨x, t', hdec'⟩ : ∃ x t', t = x :: t' := by
          cases t with
          | nil => exact absurd rfl hne'
          | cons x t' => exact ⟨x, t', rfl⟩
        subst hdec'
        obtain ⟨⟨n2, hg2, hp2, -⟩, -⟩ := (segb_cons_iff m' 0 x 0 t').mp hwf'.chain
        have hfx : d'.first = x := by rw [hwf'.first_eq]; rfl
        exact ⟨n2, by rw [hfx]; exact hg2, hp2⟩
    · obtain ⟨hs', lastH, hdec⟩ : ∃ hs' lastH, hs = hs' ++ [lastH] :=
        ⟨hs.dropLast, hs.getLast hne, (List.dropLast_append_getLast hne).symm⟩
      obtain ⟨node, d', m', hget, hpop, hunch, hwf'⟩ := (pop_back_wf w).2 hs' lastH hdec
      have hlast : d.last = lastH := by rw [w.last_eq, hdec, List.getLastD_concat]
      refine ⟨node, d', m', by rw [hlast]; exact hget, hunch, hpop, ?_, ?_⟩
      · intro hz
        exact hwf'.first_zero_iff.mpr (hwf'.last_zero_iff.mp hz)
      · intro hz
        have hne' : hs' ≠ [] := fun h2 => hz (hwf'.last_zero_iff.mpr h2)
        obtain ⟨l0, y, hdec'⟩ : ∃ l0 y, hs' = l0 ++ [y] :=
          ⟨hs'.dropLast, hs'.getLast hne', (List.dropLast_append_getLast hne').symm⟩
        subst hdec'
        have hchain := hwf'.chain
        rw [segb_append] at hchain
        obtain ⟨⟨n2, hg2, -, hn2⟩, -⟩ :=
          (segb_cons_iff m' _ y 0 []).mp (Bool.and_eq_true_iff.mp hchain).2
        have hly : d'.last = y := by rw [hwf'.last_eq, List.getLastD_concat]
        refine ⟨n2, by rw [hly]; exact hg2, by rw [hn2]; rfl⟩

theorem c3_checked_pops_witness :
    (((⟨1, 1, 1⟩ : Deque).len = 0 →
      Deque.pop_front ⟨1, 1, 1⟩ (⟨[(1, ⟨5, 0, 0⟩)], 2⟩ : IndexMap Nat) =
        some (none, ⟨1, 1, 1⟩, ⟨[(1, ⟨5, 0, 0⟩)], 2⟩) ∧
      Deque.pop_back ⟨1, 1, 1⟩ (⟨[(1, ⟨5, 0, 0⟩)], 2⟩ : IndexMap Nat) =
        some (none, ⟨1, 1, 1⟩, ⟨[(1, ⟨5, 0, 0⟩)], 2⟩)) ∧
    ((⟨1, 1, 1⟩ : Deque).len ≠ 0 →
      (∃ node d' m',
        (⟨[(1, ⟨5, 0, 0⟩)], 2⟩ : IndexMap Nat).get (⟨1, 1, 1⟩ : Deque).first =
          some node ∧
        Deque.pop_front_unchecked ⟨1, 1, 1⟩ ⟨[(1, ⟨5, 0, 0⟩)], 2⟩ =
          some (node.elem, d', m') ∧
        Deque.pop_front ⟨1, 1, 1⟩ ⟨[(1, ⟨5, 0, 0⟩)], 2⟩ =
          some (some node.elem, d', m') ∧
        (d'.first = 0 → d'.last = 0) ∧
        (d'.first ≠ 0 → ∃ n2, m'.get d'.first = some n2 ∧ n2.pre = 0)) ∧
      (∃ node d' m',
        (⟨[(1, ⟨5, 0, 0⟩)], 2⟩ : IndexMap Nat).get (⟨1, 1, 1⟩ : Deque).last =
          some node ∧
        Deque.pop_back_unchecked ⟨1, 1, 1⟩ ⟨[(1, ⟨5, 0, 0⟩)], 2⟩ =
          some (node.elem, d', m') ∧
        Deque.pop_back ⟨1, 1, 1⟩ ⟨[(1, ⟨5, 0, 0⟩)], 2⟩ =
          some (some node.elem, d', m') ∧
        (d'.last = 0 → d'.first = 0) ∧
        (d'.last ≠ 0 → ∃ n2, m'.get d'.last = some n2 ∧ n2.next = 0)))) :=
  c3_checked_pops wf_one

/-- C4: `try_remove` on a handle that is not live returns absent and leaves
the deque and the Index Map unchanged; on a live handle it returns the
result of `remove` with the same state effect. -/
theorem c4_try_remove_liveness {T : Type} {d : Deque} {m : IndexMap T}
    {hs : List Nat} (i : Nat) (w : WF d m hs) :
    (m.contains i = false → Deque.try_remove d i m = some (none, d, m)) ∧
    (m.contains i = true → ∃ x d' m',
      Deque.remove d i m = some (x, d', m') ∧
      Deque.try_remove d i m = some (some x, d', m')) := by
  constructor
  · intro hc
    simp [Deque.try_remove, hc]
  · intro hc
    obtain ⟨l1, l2, hdec⟩ := List.append_of_mem ((w.live_iff i).mp hc)
    obtain ⟨node, d', m', -, hrem, htr, -⟩ := (try_remove_wf w).2 l1 l2 hdec
    exact ⟨node.elem, d', m', hrem, htr⟩

theorem c4_try_remove_liveness_witness :
    (((⟨[(1, ⟨5, 0, 0⟩)], 2⟩ : IndexMap Nat).contains 7 = false →
      Deque.try_remove ⟨1, 1, 1⟩ 7 ⟨[(1, ⟨5, 0, 0⟩)], 2⟩ =
        some (none, ⟨1, 1, 1⟩, ⟨[(1, ⟨5, 0, 0⟩)], 2⟩)) ∧
    ((⟨[(1, ⟨5, 0, 0⟩)], 2⟩ : IndexMap Nat).contains 7 = true → ∃ x d' m',
      Deque.remove ⟨1, 1, 1⟩ 7 ⟨[(1, ⟨5, 0, 0⟩)], 2⟩ = some (x, d', m') ∧
      Deque.try_remove ⟨1, 1, 1⟩ 7 ⟨[(1, ⟨5, 0, 0⟩)], 2⟩ =
        some (some x, d', m'))) :=
  c4_try_remove_liveness 7 wf_one

/-- C5: `clear` produces exactly the state reached by calling `pop_front`
once per element and discarding the results; afterwards the length is `0`
and head and tail are both `0`. -/
theorem c5_clear_equals_popN {T : Type} {d : Deque} {m : IndexMap T}
    {hs : List Nat} (w : WF d m hs) :
    Deque.clear d m = popN d.len d m ∧
    Deque.clear d m = some (⟨0, 0, 0⟩, eraseList m hs) := by
  have h1 := (clear_wf w).1
  have h2 := popN_eq hs d m w
  rw [w.len_eq]
  exact ⟨h1.trans h2.symm, h1⟩

theorem c5_clear_equals_popN_witness :
    (Deque.clear ⟨1, 1, 1⟩ (⟨[(1, ⟨5, 0, 0⟩)], 2⟩ : IndexMap Nat) =
      popN (⟨1, 1, 1⟩ : Deque).len ⟨1, 1, 1⟩ ⟨[(1, ⟨5, 0, 0⟩)], 2⟩ ∧
    Deque.clear ⟨1, 1, 1⟩ (⟨[(1, ⟨5, 0, 0⟩)], 2⟩ : IndexMap Nat) =
      some (⟨0, 0, 0⟩, eraseList ⟨[(1, ⟨5, 0, 0⟩)], 2⟩ [1])) :=
  c5_clear_equals_popN wf_one

/-- C6: with a live member anchor, `push_to_back` (the spec's
`insert_after`) allocates a fresh node, links it immediately after the
anchor, relinks the anchor's former successor when it is nonzero, updates
the tail to the new node exactly when the anchor was the tail, increments
the length, and returns the new handle. -/
theorem c6_insert_after_spec {T : Type} {d : Deque} {m : IndexMap T}
    {l1 l2 : List Nat} {a : Nat} (e : T) (w : WF d m (l1 ++ a :: l2)) :
    ∃ d' m', Deque.push_to_back d e a m = some (m.fresh, d', m') ∧
      d'.len = d.len + 1 ∧ d'.first = d.first ∧
      ∃ nodeA, m.get a = some nodeA ∧
        m'.get a = some { nodeA with next := m.fresh } ∧
        m'.get m.fresh = some { elem := e, next := nodeA.next, pre := a } ∧
        (nodeA.next ≠ 0 → ∃ nodeS, m.get nodeA.next = some nodeS ∧
          m'.get nodeA.next = some { nodeS with pre := m.fresh }) ∧
        (d'.last = m.fresh ↔ d.last = a) ∧
        (d.last ≠ a → d'.last = d.last) := by
  obtain ⟨d', m', hstep, hwf, hlen, hfirst, nodeA, hgetA, htail0, htail1, hgF, hgA, hgS⟩ :=
    push_to_back_wf e w
  have hfresh_pos : d.last < m.fresh ∨ d.last = 0 := by
    by_cases hz : d.last = 0
    · exact Or.inr hz
    · left
      have hne : l1 ++ a :: l2 ≠ [] := by simp
      have : d.last ∈ l1 ++ a :: l2 := by
        rw [w.last_eq, List.getLastD_eq_getLast?,
          List.getLast?_eq_getLast_of_ne_nil hne]
        exact List.getLast_mem hne
      exact (w.pos_mem _ this).2
  have hiff : nodeA.next = 0 ↔ d.last = a := by
    constructor
    · intro h0
      have hl2 : l2 = [] := by
        by_contra hne
        obtain ⟨x, l2', rfl⟩ : ∃ x l2', l2 = x :: l2' := by
          cases l2 with
          | nil => exact absurd rfl hne
          | cons x l2' => exact ⟨x, l2', rfl⟩
        have hchain := w.chain
        rw [segb_append] at hchain
        obtain ⟨⟨nA, hgA2, -, hnA⟩, -⟩ :=
          (segb_cons_iff m _ a 0 (x :: l2')).mp (Bool.and_eq_true_iff.mp hchain).2
        rw [hgA2] at hgetA
        injection hgetA with hgetA
        have hx : nodeA.next = x := by rw [← hgetA, hnA]; rfl
        have := (w.pos_mem x (by simp)).1
        omega
      subst hl2
      rw [w.last_eq, List.getLastD_concat]
    · intro hla
      by_contra hne0
      obtain ⟨x, l2', rfl⟩ : ∃ x l2', l2 = x :: l2' := by
        cases l2 with
        | nil =>
          exfalso
          have hchain := w.chain
          rw [segb_append] at hchain
          obtain ⟨⟨nA, hgA2, -, hnA⟩, -⟩ :=
            (segb_cons_iff m _ a 0 []).mp (Bool.and_eq_true_iff.mp hchain).2
          rw [hgA2] at hgetA
          injection hgetA with hgetA
          rw [hgetA] at hnA
          exact hne0 hnA
        | cons x l2' => exact ⟨x, l2', rfl⟩
      have hnd := w.nodup
      rcases List.nodup_append.mp hnd with ⟨-, hndc, -⟩
      have hlmem : d.last = (x :: l2').getLastD 0 := by
        rw [w.last_eq, getLastD_append_of_ne_nil _ (List.cons_ne_nil a (x :: l2')),
          List.getLastD_cons]
        exact getLastD_ne_nil (List.cons_ne_nil x l2') _ _
      have hmem : d.last ∈ x :: l2' := by
        rw [hlmem, List.getLastD_eq_getLast?,
          List.getLast?_eq_getLast_of_ne_nil (List.cons_ne_nil x l2')]
        exact List.getLast_mem _
      exact (List.nodup_cons.mp hndc).1 (hla ▸ hmem)
  refine ⟨d', m', hstep, hlen, hfirst, nodeA, hgetA, hgA, hgF, hgS, ?_, ?_⟩
  · constructor
    · intro hdf
      rcases hfresh_pos with hlt | hz
      · by_cases hn0 : nodeA.next = 0
        · exact hiff.mp hn0
        · rw [htail1 hn0] at hdf
          omega
      · by_cases hn0 : nodeA.next = 0
        · exact hiff.mp hn0
        · rw [htail1 hn0] at hdf
          rw [hz] at hdf
          have := w.fresh_pos
          omega
    · intro hla
      exact htail0 (hiff.mpr hla)
  · intro hne
    have hn0 : nodeA.next ≠ 0 := fun h0 => hne (hiff.mp h0)
    exact htail1 hn0

theorem c6_insert_after_spec_witness :
    ∃ d' m', Deque.push_to_back ⟨1, 1, 1⟩ (9 : Nat) 1 ⟨[(1, ⟨5, 0, 0⟩)], 2⟩ =
        some ((⟨[(1, ⟨5, 0, 0⟩)], 2⟩ : IndexMap Nat).fresh, d', m') ∧
      d'.len = (⟨1, 1, 1⟩ : Deque).len + 1 ∧ d'.first = (⟨1, 1, 1⟩ : Deque).first ∧
      ∃ nodeA, (⟨[(1, ⟨5, 0, 0⟩)], 2⟩ : IndexMap Nat).get 1 = some nodeA ∧
        m'.get 1 = some { nodeA with next := (⟨[(1, ⟨5, 0, 0⟩)], 2⟩ : IndexMap Nat).fresh } ∧
        m'.get (⟨[(1, ⟨5, 0, 0⟩)], 2⟩ : IndexMap Nat).fresh =
          some { elem := 9, next := nodeA.next, pre := 1 } ∧
        (nodeA.next ≠ 0 → ∃ nodeS,
          (⟨[(1, ⟨5, 0, 0⟩)], 2⟩ : IndexMap Nat).get nodeA.next = some nodeS ∧
          m'.get nodeA.next =
            some { nodeS with pre := (⟨[(1, ⟨5, 0, 0⟩)], 2⟩ : IndexMap Nat).fresh }) ∧
        (d'.last = (⟨[(1, ⟨5, 0, 0⟩)], 2⟩ : IndexMap Nat).fresh ↔
          (⟨1, 1, 1⟩ : Deque).last = 1) ∧
        ((⟨1, 1, 1⟩ : Deque).last ≠ 1 → d'.last = (⟨1, 1, 1⟩ : Deque).last) :=
  @c6_insert_after_spec Nat ⟨1, 1, 1⟩ ⟨[(1, ⟨5, 0, 0⟩)], 2⟩ [] [] 1 9 wf_one

/-- C7: a full forward iteration yields exactly the elements along the
successor chain from head to tail (the deque and Index Map are read-only
inputs, so iteration mutates nothing and a fresh call restarts from the
head); concretely, from an empty deque, `push_back a; push_back b;
push_back c` then iterating yields `[a, b, c]`, a `pop_front` then yields
`Some a`, and the length is `2`. -/
theorem c7_iteration_spec {T : Type} :
    (∀ (d : Deque) (m : IndexMap T) (hs : List Nat), WF d m hs →
      Deque.iterList d m = some (elemsOf m hs)) ∧
    ∀ (a b c : T),
      Deque.push_back Deque.new a IndexMap.empty =
        some (1, ⟨1, 1, 1⟩, ⟨[(1, ⟨a, 0, 0⟩)], 2⟩) ∧
      Deque.push_back ⟨1, 1, 1⟩ b (⟨[(1, ⟨a, 0, 0⟩)], 2⟩ : IndexMap T) =
        some (2, ⟨1, 2, 2⟩, ⟨[(1, ⟨a, 2, 0⟩), (2, ⟨b, 0, 1⟩)], 3⟩) ∧
      Deque.push_back ⟨1, 2, 2⟩ c (⟨[(1, ⟨a, 2, 0⟩), (2, ⟨b, 0, 1⟩)], 3⟩ : IndexMap T) =
        some (3, ⟨1, 3, 3⟩, ⟨[(1, ⟨a, 2, 0⟩), (2, ⟨b, 3, 1⟩), (3, ⟨c, 0, 2⟩)], 4⟩) ∧
      Deque.iterList ⟨1, 3, 3⟩
          (⟨[(1, ⟨a, 2, 0⟩), (2, ⟨b, 3, 1⟩), (3, ⟨c, 0, 2⟩)], 4⟩ : IndexMap T) =
        some [a, b, c] ∧
      Deque.pop_front ⟨1, 3, 3⟩
          (⟨[(1, ⟨a, 2, 0⟩), (2, ⟨b, 3, 1⟩), (3, ⟨c, 0, 2⟩)], 4⟩ : IndexMap T) =
        some (some a, ⟨2, 3, 2⟩, ⟨[(2, ⟨b, 3, 0⟩), (3, ⟨c, 0, 2⟩)], 4⟩) ∧
      (⟨2, 3, 2⟩ : Deque).len = 2 :=
  ⟨fun _ _ _ w => iterList_wf w, fun _ _ _ => ⟨rfl, rfl, rfl, rfl, rfl, rfl⟩⟩

theorem c7_iteration_spec_witness :
    Deque.iterList ⟨1, 1, 1⟩ (⟨[(1, ⟨5, 0, 0⟩)], 2⟩ : IndexMap Nat) =
      some (elemsOf ⟨[(1, ⟨5, 0, 0⟩)], 2⟩ [1]) ∧
    (⟨2, 3, 2⟩ : Deque).len = 2 :=
  ⟨c7_iteration_spec.1 ⟨1, 1, 1⟩ ⟨[(1, ⟨5, 0, 0⟩)], 2⟩ [1] wf_one,
    (c7_iteration_spec.2 10 20 30).2.2.2.2.2⟩

/-- C8: from an empty deque, `push_front a; push_front b` then iterating
yields `[b, a]`; `pop_back` then returns `Some a`; iterating after that
yields `[b]`. -/
theorem c8_push_front_pop_back_scenario {T : Type} (a b : T) :
    Deque.push_front Deque.new a IndexMap.empty =
      some (1, ⟨1, 1, 1⟩, ⟨[(1, ⟨a, 0, 0⟩)], 2⟩) ∧
    Deque.push_front ⟨1, 1, 1⟩ b (⟨[(1, ⟨a, 0, 0⟩)], 2⟩ : IndexMap T) =
      some (2, ⟨2, 1, 2⟩, ⟨[(1, ⟨a, 0, 2⟩), (2, ⟨b, 1, 0⟩)], 3⟩) ∧
    Deque.iterList ⟨2, 1, 2⟩ (⟨[(1, ⟨a, 0, 2⟩), (2, ⟨b, 1, 0⟩)], 3⟩ : IndexMap T) =
      some [b, a] ∧
    Deque.pop_back ⟨2, 1, 2⟩ (⟨[(1, ⟨a, 0, 2⟩), (2, ⟨b, 1, 0⟩)], 3⟩ : IndexMap T) =
      some (some a, ⟨2, 2, 1⟩, ⟨[(2, ⟨b, 0, 0⟩)], 3⟩) ∧
    Deque.iterList ⟨2, 2, 1⟩ (⟨[(2, ⟨b, 0, 0⟩)], 3⟩ : IndexMap T) = some [b] :=
  ⟨rfl, rfl, rfl, rfl, rfl⟩

/-- C9: on a well-formed deque every operation's loop is finite: `clear`'s
removal loop reaches the sentinel `0` within `length` removals (so fuel
`length + 1` already suffices and `clear` succeeds), and a full forward
iteration terminates with a finite list within `length` steps. -/
theorem c9_termination_bounds {T : Type} {d : Deque} {m : IndexMap T}
    {hs : List Nat} (w : WF d m hs) :
    Deque.clearLoop (d.len + 1) d.first m = some (eraseList m hs) ∧
    Deque.clear d m = some (⟨0, 0, 0⟩, eraseList m hs) ∧
    Deque.iterFrom d.len d.first m = some (elemsOf m hs) ∧
    Deque.iterList d m = some (elemsOf m hs) := by
  refine ⟨?_, (clear_wf w).1, ?_, iterList_wf w⟩
  · rw [w.first_eq, w.len_eq]
    exact clearLoop_eq hs (hs.length + 1) m 0 (by omega) w.nodup
      (fun h hm => (w.pos_mem h hm).1) w.chain
  · rw [w.first_eq, w.len_eq]
    exact iterFrom_eq hs m 0 hs.length (Nat.le_refl _) w.chain
      (fun h hm => (w.pos_mem h hm).1)

theorem c9_termination_bounds_witness :
    Deque.clearLoop ((⟨1, 1, 1⟩ : Deque).len + 1) (⟨1, 1, 1⟩ : Deque).first
        (⟨[(1, ⟨5, 0, 0⟩)], 2⟩ : IndexMap Nat) =
      some (eraseList ⟨[(1, ⟨5, 0, 0⟩)], 2⟩ [1]) ∧
    Deque.clear ⟨1, 1, 1⟩ (⟨[(1, ⟨5, 0, 0⟩)], 2⟩ : IndexMap Nat) =
      some (⟨0, 0, 0⟩, eraseList ⟨[(1, ⟨5, 0, 0⟩)], 2⟩ [1]) ∧
    Deque.iterFrom (⟨1, 1, 1⟩ : Deque).len (⟨1, 1, 1⟩ : Deque).first
        (⟨[(1, ⟨5, 0, 0⟩)], 2⟩ : IndexMap Nat) =
      some (elemsOf ⟨[(1, ⟨5, 0, 0⟩)], 2⟩ [1]) ∧
    Deque.iterList ⟨1, 1, 1⟩ (⟨[(1, ⟨5, 0, 0⟩)], 2⟩ : IndexMap Nat) =
      some (elemsOf ⟨[(1, ⟨5, 0, 0⟩)], 2⟩ [1]) :=
  c9_termination_bounds wf_one

/-- C10: `clone` copies exactly the three scalars, so the clone's first
handle, last handle, and length equal the original's, the clone equals the
original as a value, and iterating the clone over the same Index Map walks
the very same node chain — no nodes are duplicated. -/
theorem c10_clone_scalars (d : Deque) :
    (Deque.clone d).first = d.first ∧ (Deque.clone d).last = d.last ∧
    (Deque.clone d).len = d.len ∧ Deque.clone d = d ∧
    ∀ (T : Type) (m : IndexMap T),
      Deque.iterList (Deque.clone d) m = Deque.iterList d m :=
  ⟨rfl, rfl, rfl, rfl, fun _ _ => rfl⟩

end PiDeque
